import Mathlib

/-!
CDMA over Walsh codes (main.go): a shallow embedding and its properties

The Go program generates a Walsh matrix in Hadamard order, spreads the bits of
short ASCII messages with rows of that matrix, superposes the chip streams on a
shared channel and recovers every message by correlation.

Conventions of the embedding

* Go `int` is the 64 bit two's complement integer.  Values are Lean integers
  and every arithmetic operation of the source is followed by `wrapInt`,
  the reduction into `[-2^63, 2^63)`.
* Slices are lists.  Loop counters and slice indices are natural numbers
  (they start at zero and only grow).  Every index expression of the source
  is a checked access: out of range raises `Panic.indexOutOfRange`.  The
  loop of `AddStation` walks the signal and the chips in step, which visits
  the same positions in the same order and panics at the same position.
* A function that can raise a run-time panic returns `Except Panic _`.
  `AddStation` mutates the channel in place, therefore it returns the channel
  as it is left behind together with the panic, if any.
* The platform is a 64 bit one, where the allocator accepts requests of at
  most `maxAlloc` = 2^48 bytes.  `make` performs the length check of the
  runtime: it panics on a negative length and on a length whose size in bytes
  exceeds `maxAlloc`.  Beyond that check the heap is taken to be large enough:
  exhaustion of the memory of a particular machine is not modelled.  The
  other calls of `make` in the program ask for the length of a slice that
  already exists, which passes the check; `append` is taken to succeed.
* The mutex of `Channel` is not modelled; calls are whole and sequential.
-/

namespace CDMA

/-! ## Machine integers -/

/-- Run-time failures raised by the program or by the Go runtime. -/
inductive Panic where
  /-- The explicit panic of walshMatrix: n must be a power of two and > 0. -/
  | invalidSize
  /-- Raised by make when the requested length is negative or too large. -/
  | makesliceLenOutOfRange
  /-- Raised by an index expression outside the slice. -/
  | indexOutOfRange
  /-- Raised by an integer division whose divisor is zero. -/
  | divideByZero
  /-- Raised by a slice expression whose bound exceeds the capacity. -/
  | sliceBoundsOutOfRange
  deriving DecidableEq, Repr

/-- Equality of outcomes is decidable, so closed instances can be evaluated. -/
instance instDecidableEqExcept {ε α : Type} [DecidableEq ε] [DecidableEq α] :
    DecidableEq (Except ε α)
  | .ok a, .ok b => if h : a = b then isTrue (by rw [h]) else isFalse (fun h1 => h (by cases h1; rfl))
  | .error a, .error b =>
    if h : a = b then isTrue (by rw [h]) else isFalse (fun h1 => h (by cases h1; rfl))
  | .ok _, .error _ => isFalse (fun h => by cases h)
  | .error _, .ok _ => isFalse (fun h => by cases h)

/-- Reduction of an integer into the range of a 64 bit signed int: the
representative of x modulo 2^64 = 18446744073709551616 that lies between
-2^63 and 2^63 - 1, where 2^63 = 9223372036854775808. -/
def wrapInt (x : Int) : Int :=
  (x + 9223372036854775808) % 18446744073709551616 - 9223372036854775808

/-- Go addition on int. -/
def addInt (a b : Int) : Int := wrapInt (a + b)

/-- Go subtraction on int. -/
def subInt (a b : Int) : Int := wrapInt (a - b)

/-- Go multiplication on int. -/
def mulInt (a b : Int) : Int := wrapInt (a * b)

/-- Go unary minus on int. -/
def negInt (a : Int) : Int := wrapInt (-a)

/-- The 64 bit pattern of an int, read as an unsigned number: Go uint(x). -/
def toUint (x : Int) : Nat := (x % 18446744073709551616).toNat

/-- Go bitwise and on int: the and of the two bit patterns, read back as int. -/
def andInt (a b : Int) : Int := wrapInt ((toUint a &&& toUint b : Nat) : Int)

/-- Population count of the low bits of x, one bit per unit of fuel. -/
def onesCountAux : Nat → Nat → Nat
  | 0, _ => 0
  | fuel + 1, x => x % 2 + onesCountAux fuel (x / 2)

/-- The function bits.OnesCount of the Go library on a 64 bit uint. -/
def onesCount (x : Nat) : Nat := onesCountAux 64 x

/-! ## Loops and checked slice accesses -/

/-- A range loop whose body may panic: the state is threaded through the
elements in order and the first panic aborts the loop. -/
def loopOver {α σ : Type} (body : α → σ → Except Panic σ) : List α → σ → Except Panic σ
  | [], s => .ok s
  | a :: as, s =>
    match body a s with
    | .ok s1 => loopOver body as s1
    | .error e => .error e

/-- The counted loop for i := 0; i < n; i++. -/
def forRange {σ : Type} (n : Nat) (body : Nat → σ → Except Panic σ) (s : σ) : Except Panic σ :=
  loopOver body (List.range n) s

/-- Checked read xs[i]. -/
def readAt {α : Type} (xs : List α) (i : Nat) : Except Panic α :=
  match xs[i]? with
  | some x => .ok x
  | none => .error .indexOutOfRange

/-- Checked write xs[i] = v. -/
def writeAt {α : Type} (xs : List α) (i : Nat) (v : α) : Except Panic (List α) :=
  if i < xs.length then .ok (xs.set i v) else .error .indexOutOfRange

/-- Checked write m[i][j] = v on a slice of slices. -/
def writeCell (m : List (List Int)) (i j : Nat) (v : Int) : Except Panic (List (List Int)) :=
  match readAt m i with
  | .error e => .error e
  | .ok row =>
    match writeAt row j v with
    | .error e => .error e
    | .ok row1 => writeAt m i row1

/-! ## walshMatrix -/

/-- The value stored at m[i][j]: lines 27 to 33 of main.go. -/
def walshEntry (i j : Nat) : Int :=
  let x := andInt (i : Int) (j : Int)
  let bits := onesCount (toUint x)
  if bits % 2 == 0 then 1 else -1

/-- The largest request, in bytes, that the allocator of the Go runtime accepts on a
64 bit platform: the constant maxAlloc = 2^48 of the runtime. -/
def maxAlloc : Int := 281474976710656

/-- The built-in make([]T, n) for an element type of elemSize bytes, with the length
check of runtime.makeslice: the call panics when n is negative or when elemSize * n
exceeds maxAlloc, and otherwise yields n zero values. -/
def makeSlice {α : Type} (elemSize : Int) (zero : α) (n : Int) : Except Panic (List α) :=
  if n < 0 ∨ maxAlloc < elemSize * n then .error .makesliceLenOutOfRange
  else .ok (List.replicate n.toNat zero)

/-- The function walshMatrix of main.go. A slice header ([]int) takes 24 bytes and an
int takes 8 bytes. -/
def walshMatrix (n : Int) : Except Panic (List (List Int)) :=
  if n == 0 || andInt n (subInt n 1) != 0 then
    .error .invalidSize
  else
    match makeSlice 24 ([] : List Int) n with
    | .error e => .error e
    | .ok m =>
      match forRange m.length
          (fun i m1 =>
            match makeSlice 8 (0 : Int) n with
            | .error e => .error e
            | .ok row => writeAt m1 i row)
          m with
      | .error e => .error e
      | .ok m0 =>
        let len := n.toNat
        forRange len (fun i m1 => forRange len (fun j m2 => writeCell m2 i j (walshEntry i j)) m1) m0

/-! ## Stations -/

/-- The struct Station. Go strings that hold text are Lean strings. -/
structure Station where
  id : Int
  name : String
  word : String
  code : List Int
  bits : List Int
  deriving DecidableEq, Repr

/-- The map messages; a missing key yields the empty string. -/
def messages (name : String) : String :=
  if name = "A" then "GOD"
  else if name = "B" then "CAT"
  else if name = "C" then "HAM"
  else if name = "D" then "SUN"
  else ""

/-- The function asciiToBits: eight bits per rune, most significant first. -/
def asciiToBits (s : String) : List Int :=
  s.toList.foldl
    (fun bits ch =>
      [7, 6, 5, 4, 3, 2, 1, 0].foldl
        (fun bits1 i => bits1 ++ [if ch.toNat &&& (1 <<< i) != 0 then (1 : Int) else 0])
        bits)
    []

/-- The function spreadBit. -/
def spreadBit (bit : Int) (code : List Int) : Except Panic (List Int) :=
  let val : Int := if bit == 0 then -1 else 1
  loopOver (fun (ic : Nat × Int) chips => writeAt chips ic.1 (mulInt val ic.2))
    (List.range code.length |>.zip code) (List.replicate code.length (0 : Int))

/-- The spreading loop of newStation: lines 88 to 91 of main.go. -/
def spreadLoop (dataBits code : List Int) : Except Panic (List Int) :=
  loopOver
    (fun b spread =>
      match spreadBit b code with
      | .ok chips => .ok (spread ++ chips)
      | .error e => .error e)
    dataBits []

/-- The conversion string(rune(x)) of an int: truncation to 32 bits, then the
text of that code point, or U+FFFD when it is not a valid code point. -/
def runeToString (x : Int) : String :=
  let r : Int := (x + 2 ^ 31) % 2 ^ 32 - 2 ^ 31
  if (0 ≤ r ∧ r < 0xD800) ∨ (0xE000 ≤ r ∧ r ≤ 0x10FFFF) then
    String.singleton (Char.ofNat r.toNat)
  else
    String.singleton (Char.ofNat 0xFFFD)

/-- The function newStation. -/
def newStation (id : Int) (code : List Int) : Except Panic Station :=
  let name := runeToString (addInt 65 id)
  let word := messages name
  let dataBits := asciiToBits word
  match spreadLoop dataBits code with
  | .error e => .error e
  | .ok spread => .ok { id := id, name := name, word := word, code := code, bits := spread }

/-! ## The channel -/

/-- The struct Channel (its mutex left out). -/
structure Channel where
  signal : List Int
  deriving DecidableEq, Repr

/-- The function NewChannel: the signal is the nil slice. -/
def NewChannel : Channel := { signal := [] }

/-- The superposition loop of AddStation, lines 120 to 122, walking the signal
and the chips of the station in step from position 0: every position of the
signal is increased by the chip at the same position, and the position at
which the station has no chip left raises the index panic. It returns the
signal as it stands when the loop ends or panics: the positions before the
panic are already increased. -/
def addLoop : List Int → List Int → List Int × Option Panic
  | [], _ => ([], none)
  | v :: signal, [] => (v :: signal, some .indexOutOfRange)
  | v :: signal, b :: bits =>
    match addLoop signal bits with
    | (rest, outcome) => (addInt v b :: rest, outcome)

/-- The method AddStation: the channel after the call and the panic, if any. -/
def AddStation (ch : Channel) (s : Station) : Channel × Option Panic :=
  if ch.signal.length == 0 then
    ({ signal := s.bits }, none)
  else
    match addLoop ch.signal s.bits with
    | (signal, outcome) => ({ signal := signal }, outcome)

/-- The correlation of one window: the inner loop of Decode, lines 139 to 142. -/
def correlate (signal stationCode : List Int) (start : Nat) : Except Panic Int :=
  forRange stationCode.length
    (fun j sum =>
      match readAt signal (start + j), readAt stationCode j with
      | .ok a, .ok c => .ok (addInt sum (mulInt a c))
      | .error e, _ => .error e
      | _, .error e => .error e)
    0

/-- The despreading part of Decode, lines 132 to 150: the recovered bits. -/
def recoverBits (signal stationCode : List Int) : Except Panic (List Int) :=
  let chipLen := stationCode.length
  if chipLen == 0 then
    .error .divideByZero
  else
    let bitsCount := signal.length / chipLen
    forRange bitsCount
      (fun i recoveredBits =>
        let start := i * chipLen
        match correlate signal stationCode start with
        | .error e => .error e
        | .ok sum => .ok (recoveredBits ++ [if sum > 0 then (1 : Int) else 0]))
      []

/-- One byte of the text: the inner loop of lines 155 to 160. -/
def packByte (recoveredBits : List Int) (i : Nat) : Except Panic Nat :=
  forRange 8
    (fun j b =>
      match readAt recoveredBits (i + j) with
      | .error e => .error e
      | .ok v => .ok (if v == 1 then b ||| (1 <<< (7 - j)) else b))
    0

/-- The packing loop of lines 154 to 162, from position i on. -/
def packLoop (recoveredBits : List Int) (i : Nat) (bytes : List Nat) : Except Panic (List Nat) :=
  if i + 7 < recoveredBits.length then
    match packByte recoveredBits i with
    | .error e => .error e
    | .ok b => packLoop recoveredBits (i + 8) (bytes ++ [b])
  else
    .ok bytes
termination_by recoveredBits.length - i
decreasing_by omega

/-- The method Decode: the bytes of the returned string. -/
def Decode (ch : Channel) (stationCode : List Int) : Except Panic (List Nat) :=
  let signal := ch.signal
  match recoverBits signal stationCode with
  | .error e => .error e
  | .ok recoveredBits => packLoop recoveredBits 0 []

/-! ## The set-up of main -/

/-- The bytes of the UTF-8 text of one code point. -/
def utf8Bytes (c : Nat) : List Nat :=
  if c < 0x80 then [c]
  else if c < 0x800 then [0xC0 + c / 64, 0x80 + c % 64]
  else if c < 0x10000 then [0xE0 + c / 4096, 0x80 + c / 64 % 64, 0x80 + c % 64]
  else [0xF0 + c / 262144, 0x80 + c / 4096 % 64, 0x80 + c / 64 % 64, 0x80 + c % 64]

/-- The bytes of a Go string that holds the given text. -/
def stringBytes (s : String) : List Nat :=
  s.toList.flatMap (fun ch => utf8Bytes ch.toNat)

/-- Lines 207 to 218 of main: the codes, the channel and the four stations. -/
def mainSetup : Except Panic (Channel × List Station) :=
  match walshMatrix 8 with
  | .error e => .error e
  | .ok walsh =>
    if walsh.length < 4 then
      .error .sliceBoundsOutOfRange
    else
      let codes := walsh.take 4
      forRange 4
        (fun i (st : Channel × List Station) =>
          match readAt codes i with
          | .error e => .error e
          | .ok code =>
            match newStation (i : Int) code with
            | .error e => .error e
            | .ok s =>
              match AddStation st.1 s with
              | (ch, none) => .ok (ch, st.2 ++ [s])
              | (_, some e) => .error e)
        (NewChannel, [])

/-- One line of the display of main, lines 224 to 231: the station's name, the
bytes of the decoded text and whether they are the bytes of the station's word. -/
structure DecodeLine where
  name : String
  decoded : List Nat
  same : Bool
  deriving DecidableEq, Repr

/-- One pass of the decode loop of main, lines 224 to 231. -/
def decodeCycle (channel : Channel) (stations : List Station) : Except Panic (List DecodeLine) :=
  loopOver
    (fun (s : Station) lines =>
      match Decode channel s.code with
      | .error e => .error e
      | .ok decoded =>
        .ok (lines ++ [{ name := s.name, decoded := decoded,
                         same := !(decoded != stringBytes s.word) }]))
    stations []

/-- What a run of main shows up to the end of its first decode pass. -/
structure MainRun where
  signalLength : Nat
  words : List String
  dataBitCounts : List Nat
  chipCounts : List Nat
  lines : List DecodeLine
  deriving DecidableEq, Repr

/-- The run of main: the set-up followed by one decode pass. -/
def mainRun : Except Panic MainRun :=
  match mainSetup with
  | .error e => .error e
  | .ok (channel, stations) =>
    match decodeCycle channel stations with
    | .error e => .error e
    | .ok lines =>
      .ok { signalLength := channel.signal.length,
            words := stations.map (fun s => s.word),
            dataBitCounts := stations.map (fun s => (asciiToBits s.word).length),
            chipCounts := stations.map (fun s => s.bits.length),
            lines := lines }

/-! ## Vocabulary of the properties -/

/-- The dot product of two integer sequences: the sum of the products of
corresponding entries. -/
def dot (u v : List Int) : Int := (List.zipWith (fun a b => a * b) u v).sum

/-- The i-th window of length len of a signal: positions i*len to i*len+len-1. -/
def window (signal : List Int) (len i : Nat) : List Int := (signal.drop (i * len)).take len

/-- The number of set bits of a natural number: the sum of its binary digits. -/
def setBits (x : Nat) : Nat := (Nat.digits 2 x).sum

/-- The sum over the stations of a list of their chip at position i; a station
without a chip at that position adds nothing. -/
def chipSum (stations : List Station) (i : Nat) : Int :=
  (stations.map (fun s => s.bits.getD i 0)).sum

/-- The eight bits that asciiToBits appends for one rune: lines 59 to 65. -/
def runeBits (c : Nat) : List Int :=
  [7, 6, 5, 4, 3, 2, 1, 0].map (fun i => if c &&& (1 <<< i) != 0 then (1 : Int) else 0)

/-- The byte spelled by a group of bits read most significant bit first; a bit
counts as set exactly when it equals 1. -/
def bitsToByte (group : List Int) : Nat :=
  group.foldl (fun b v => 2 * b + (if v == 1 then 1 else 0)) 0

/-- The text spelled by a bit sequence: one byte per full group of eight bits,
an incomplete last group is dropped. -/
def packText : List Int → List Nat
  | b0 :: b1 :: b2 :: b3 :: b4 :: b5 :: b6 :: b7 :: rest =>
    bitsToByte [b0, b1, b2, b3, b4, b5, b6, b7] :: packText rest
  | _ => []

/-- A station that transmits the given data bits: newStation from line 88 on. -/
def stationOf (id : Int) (dataBits code : List Int) : Except Panic Station :=
  match spreadLoop dataBits code with
  | .error e => .error e
  | .ok spread => .ok { id := id, name := "", word := "", code := code, bits := spread }

/-- Spread every bit sequence with its code and add the stations, in order, to
the channel: the loop of lines 214 to 218 for arbitrary data bits. -/
def superpose : List (List Int × List Int) → Channel → Except Panic Channel
  | [], ch => .ok ch
  | bc :: rest, ch =>
    match stationOf 0 bc.1 bc.2 with
    | .error e => .error e
    | .ok s =>
      match AddStation ch s with
      | (ch1, none) => superpose rest ch1
      | (_, some e) => .error e

/-! ## Sequences of calls on one channel -/

/-- AddStation for every station of a list, in order, on the same channel; the
first panic ends the sequence. -/
def addStations : List Station → Channel → Channel × Option Panic
  | [], ch => (ch, none)
  | s :: rest, ch =>
    match AddStation ch s with
    | (ch1, none) => addStations rest ch1
    | (ch1, some e) => (ch1, some e)

/-- The channel as it stands after each call of a sequence of AddStation calls;
a call that panics leaves the channel to the next call as it stands then. -/
def addEach : List Station → Channel → List Channel
  | [], _ => []
  | s :: rest, ch => (AddStation ch s).1 :: addEach rest (AddStation ch s).1

/-! ## Decode as a step on the memory it can reach -/

/-- The slices a call of Decode can reach: the signal of the channel and the
code handed in by the caller, both shared with the rest of the program, and
the three local slices of the call. -/
structure DecodeMemory where
  chSignal : List Int
  stationCode : List Int
  signal : List Int
  recoveredBits : List Int
  bytes : List Nat
  deriving DecidableEq, Repr

/-- The builtin copy(dst, src): the first min(len(dst), len(src)) positions of
dst are overwritten by those of src. -/
def copySlice (dst src : List Int) : List Int :=
  src.take dst.length ++ dst.drop src.length

/-- A range loop on a state that survives a panic of the body. -/
def loopKeep {α σ : Type} (body : α → σ → σ × Option Panic) : List α → σ → σ × Option Panic
  | [], s => (s, none)
  | a :: as, s =>
    match body a s with
    | (s1, none) => loopKeep body as s1
    | (s1, some e) => (s1, some e)

/-- The despreading loop of Decode, lines 136 to 150, on the memory: it
appends to the local recoveredBits. -/
def decodeBitsRun (m : DecodeMemory) (bitsCount chipLen : Nat) : DecodeMemory × Option Panic :=
  loopKeep
    (fun i (m1 : DecodeMemory) =>
      match correlate m1.signal m1.stationCode (i * chipLen) with
      | .error e => (m1, some e)
      | .ok sum =>
        ({ m1 with recoveredBits := m1.recoveredBits ++ [if sum > 0 then (1 : Int) else 0] },
          none))
    (List.range bitsCount) m

/-- The packing loop of Decode, lines 154 to 162, on the memory: it appends to
the local bytes. -/
def decodePackRun (m : DecodeMemory) (i : Nat) : DecodeMemory × Option Panic :=
  if i + 7 < m.recoveredBits.length then
    match packByte m.recoveredBits i with
    | .error e => (m, some e)
    | .ok b => decodePackRun { m with bytes := m.bytes ++ [b] } (i + 8)
  else
    (m, none)
termination_by m.recoveredBits.length - i
decreasing_by omega

/-- The method Decode, statement by statement, on the memory it can reach:
the memory after the call and the returned bytes or the panic. -/
def DecodeRun (m : DecodeMemory) : DecodeMemory × Except Panic (List Nat) :=
  -- lines 128 and 129: a fresh local slice, filled from the signal of the channel
  let m1 : DecodeMemory :=
    { m with signal := copySlice (List.replicate m.chSignal.length 0) m.chSignal,
             recoveredBits := [], bytes := [] }
  let chipLen := m1.stationCode.length
  if chipLen == 0 then
    (m1, .error .divideByZero)
  else
    let bitsCount := m1.signal.length / chipLen
    match decodeBitsRun m1 bitsCount chipLen with
    | (m2, some e) => (m2, .error e)
    | (m2, none) =>
      match decodePackRun m2 0 with
      | (m3, some e) => (m3, .error e)
      | (m3, none) => (m3, .ok m3.bytes)

/-! ## Recursive doubling -/

/-- The Sylvester doubling of a matrix H: the block matrix with the rows
H H on top and the rows H -H below. -/
def sylvester (H : List (List Int)) : List (List Int) :=
  H.map (fun row => row ++ row) ++ H.map (fun row => row ++ row.map (fun x => -x))

/-- The Hadamard matrix of order 2^k by recursive doubling from the matrix
with the single entry 1. -/
def hadamard : Nat → List (List Int)
  | 0 => [[1]]
  | k + 1 => sylvester (hadamard k)

/-! ## Arithmetic of machine integers -/

theorem wrapInt_of_range {x : Int} (h1 : -2 ^ 63 ≤ x) (h2 : x < 2 ^ 63) : wrapInt x = x := by
  unfold wrapInt; omega

theorem wrapInt_range (x : Int) : -2 ^ 63 ≤ wrapInt x ∧ wrapInt x < 2 ^ 63 := by
  unfold wrapInt; omega

theorem wrapInt_modEq (x : Int) : wrapInt x ≡ x [ZMOD 2 ^ 64] := by
  unfold wrapInt Int.ModEq; omega

theorem wrapInt_congr {a b : Int} (h : a ≡ b [ZMOD 2 ^ 64]) : wrapInt a = wrapInt b := by
  unfold Int.ModEq at h; unfold wrapInt; omega

theorem wrapInt_eq_of_modEq {a b : Int} (h : a ≡ b [ZMOD 2 ^ 64]) (h1 : -2 ^ 63 ≤ b)
    (h2 : b < 2 ^ 63) : wrapInt a = b := by
  rw [wrapInt_congr h, wrapInt_of_range h1 h2]

theorem mulInt_one_left {c : Int} (h1 : -2 ^ 63 ≤ c) (h2 : c < 2 ^ 63) : mulInt 1 c = c := by
  unfold mulInt; rw [one_mul]; exact wrapInt_of_range h1 h2

theorem mulInt_neg_one_left (c : Int) : mulInt (-1) c = negInt c := by
  unfold mulInt negInt; rw [neg_one_mul]

/-! ## Loops that fill a slice position by position -/

theorem set_length_append {α : Type} (A : List α) (b v : α) (B : List α) :
    (A ++ b :: B).set A.length v = A ++ v :: B := by
  induction A with
  | nil => rfl
  | cons a A ih => simp [ih]

theorem writeAt_length_append {α : Type} (A : List α) (b v : α) (B : List α) :
    writeAt (A ++ b :: B) A.length v = .ok (A ++ v :: B) := by
  unfold writeAt
  rw [if_pos (by simp), set_length_append]

theorem loopOver_fill {α β : Type} (idx : β → Nat) (f : β → α)
    (body : β → List α → Except Panic (List α)) (P : α → Prop)
    (hbody : ∀ x A b B, idx x = A.length → P b → body x (A ++ b :: B) = .ok (A ++ f x :: B)) :
    ∀ (items : List β) (A B : List α), items.map idx = List.range' A.length B.length →
      (∀ b ∈ B, P b) → loopOver body items (A ++ B) = .ok (A ++ items.map f) := by
  intro items
  induction items with
  | nil =>
    intro A B h _
    cases B with
    | nil => simp [loopOver]
    | cons b B => simp [List.range'] at h
  | cons x xs ih =>
    intro A B h hP
    cases B with
    | nil => simp [List.range'] at h
    | cons b B =>
      simp only [List.map_cons, List.length_cons, List.range', List.cons.injEq] at h
      simp only [loopOver]
      rw [hbody x A b B h.1 (hP b (List.mem_cons_self _ _))]
      have h2 := ih (A ++ [f x]) B (by simpa using h.2)
        (fun b1 hb1 => hP b1 (List.mem_cons_of_mem _ hb1))
      simpa using h2

theorem loopOver_append {α σ : Type} (body : α → σ → Except Panic σ) (xs ys : List α) (s : σ) :
    loopOver body (xs ++ ys) s =
      match loopOver body xs s with
      | .ok s1 => loopOver body ys s1
      | .error e => .error e := by
  induction xs generalizing s with
  | nil => rfl
  | cons x xs ih =>
    simp only [List.cons_append, loopOver]
    cases body x s with
    | ok s1 => exact ih s1
    | error e => rfl

/-! ## Spreading -/

/-- The loop of spreadBit never leaves the slice: the chips are the entries of the
code, each multiplied in int arithmetic by the local variable val. -/
theorem spreadBit_eq (bit : Int) (code : List Int) :
    spreadBit bit code = .ok (code.map (fun c => mulInt (if bit == 0 then -1 else 1) c)) := by
  unfold spreadBit
  have h := loopOver_fill (fun (ic : Nat × Int) => ic.1)
    (fun (ic : Nat × Int) => mulInt (if bit == 0 then -1 else 1) ic.2)
    (fun (ic : Nat × Int) chips => writeAt chips ic.1 (mulInt (if bit == 0 then -1 else 1) ic.2))
    (fun _ => True)
    (fun x A b B hx _ => by
      have hx1 : x.1 = A.length := hx
      show writeAt (A ++ b :: B) x.1 _ = _
      rw [hx1]; exact writeAt_length_append A b _ B)
    ((List.range code.length).zip code) [] (List.replicate code.length 0)
    (by
      rw [List.map_fst_zip _ _ (by simp)]
      simp [List.range_eq_range'])
    (fun _ _ => trivial)
  simp only [List.nil_append] at h
  rw [h]
  congr 1
  have hg : (fun (ic : Nat × Int) => mulInt (if bit == 0 then -1 else 1) ic.2) =
      (fun c => mulInt (if bit == 0 then -1 else 1) c) ∘ Prod.snd := rfl
  rw [hg, ← List.map_map, List.map_snd_zip _ _ (by simp)]

theorem spreadLoop_aux (code : List Int) (dataBits acc : List Int) :
    loopOver
      (fun b spread =>
        match spreadBit b code with
        | .ok chips => .ok (spread ++ chips)
        | .error e => .error e)
      dataBits acc =
    .ok (acc ++ dataBits.flatMap (fun b => code.map (fun c => mulInt (if b == 0 then -1 else 1) c))) := by
  induction dataBits generalizing acc with
  | nil => simp [loopOver]
  | cons b bs ih =>
    rw [loopOver, spreadBit_eq]
    simp only []
    rw [ih, List.flatMap_cons, List.append_assoc]

theorem spreadLoop_eq (dataBits code : List Int) :
    spreadLoop dataBits code =
      .ok (dataBits.flatMap (fun b => code.map (fun c => mulInt (if b == 0 then -1 else 1) c))) := by
  unfold spreadLoop
  rw [spreadLoop_aux]; rfl

theorem negInt_eq_neg {c : Int} (h1 : -2 ^ 63 < c) (h2 : c < 2 ^ 63) : negInt c = -c := by
  unfold negInt wrapInt; omega

theorem getElem?_flatten_uniform (len : Nat) :
    ∀ (parts : List (List Int)), (∀ p ∈ parts, p.length = len) → ∀ i j, j < len →
      parts.flatten[i * len + j]? = (parts[i]?).bind (fun p => p[j]?) := by
  intro parts
  induction parts with
  | nil => intro _ i j _; simp
  | cons p ps ih =>
    intro h i j hj
    have hp : p.length = len := h p (List.mem_cons_self _ _)
    cases i with
    | zero =>
      simp only [Nat.zero_mul, Nat.zero_add, List.flatten_cons, List.getElem?_cons_zero,
        Option.some_bind]
      rw [List.getElem?_append_left (by omega)]
    | succ i =>
      simp only [List.flatten_cons, List.getElem?_cons_succ]
      rw [List.getElem?_append_right (by rw [hp, Nat.succ_mul]; omega)]
      rw [← ih (fun q hq => h q (List.mem_cons_of_mem _ hq)) i j hj]
      congr 1
      rw [hp, Nat.succ_mul]; omega

theorem length_flatten_uniform (len : Nat) :
    ∀ (parts : List (List Int)), (∀ p ∈ parts, p.length = len) →
      parts.flatten.length = parts.length * len := by
  intro parts
  induction parts with
  | nil => intro _; simp
  | cons p ps ih =>
    intro h
    rw [List.flatten_cons, List.length_append, ih (fun q hq => h q (List.mem_cons_of_mem _ hq)),
      h p (List.mem_cons_self _ _), List.length_cons, Nat.succ_mul]
    omega

/-- C7 (as stated, refuted): with bit = 2 and code = [1] the chip is code[0] = 1, not
the negated entry that the claim prescribes for every bit other than 1. -/
theorem spreadBit_other_bit_counterexample :
    ¬ (∃ chips, spreadBit 2 [1] = .ok chips ∧ chips.length = [(1 : Int)].length ∧
        ∀ (i : Nat) (c : Int), [(1 : Int)][i]? = some c →
          chips[i]? = some (if (2 : Int) = 1 then c else negInt c)) := by
  rintro ⟨chips, h, -, hc⟩
  have h1 : spreadBit 2 [1] = .ok [1] := by decide
  rw [h1] at h
  cases h
  have := hc 0 1 rfl
  revert this
  decide

/-- C7 (amended): for every int bit and every code whose entries are ints, spreadBit
returns len(code) chips; chip i is the Go negation of code[i] when bit == 0 and is
code[i] for every other bit, bit == 1 included. The Go negation is the opposite
number except at the least int. -/
theorem spreadBit_contract (bit : Int) (code : List Int)
    (hcode : ∀ c ∈ code, -2 ^ 63 ≤ c ∧ c < 2 ^ 63) :
    ∃ chips, spreadBit bit code = .ok chips ∧ chips.length = code.length ∧
      ∀ (i : Nat) (c : Int), code[i]? = some c →
        chips[i]? = some (if bit = 0 then negInt c else c) ∧ (c ≠ -2 ^ 63 → negInt c = -c) := by
  refine ⟨_, spreadBit_eq bit code, by simp, ?_⟩
  intro i c hic
  have hmem : c ∈ code := List.getElem?_mem hic
  have hr := hcode c hmem
  constructor
  · rw [List.getElem?_map, hic, Option.map_some']
    by_cases hb : bit = 0
    · simp [hb, mulInt_neg_one_left]
    · simp [hb, mulInt_one_left hr.1 hr.2]
  · intro hne
    exact negInt_eq_neg (lt_of_le_of_ne hr.1 (Ne.symm hne)) hr.2

theorem spreadBit_contract_witness :
    (∀ c ∈ [(1 : Int), -1, 1, -1], -2 ^ 63 ≤ c ∧ c < 2 ^ 63) ∧
    ∃ chips, spreadBit 0 [1, -1, 1, -1] = .ok chips ∧ chips.length = [(1 : Int), -1, 1, -1].length ∧
      ∀ (i : Nat) (c : Int), [(1 : Int), -1, 1, -1][i]? = some c →
        chips[i]? = some (if (0 : Int) = 0 then negInt c else c) ∧ (c ≠ -2 ^ 63 → negInt c = -c) :=
  ⟨by decide, spreadBit_contract 0 [1, -1, 1, -1] (by decide)⟩

/-- C8: for every bit sequence and every code the spreading loop of newStation returns
the in-order concatenation of spreadBit(b, code) over the bits b: its length is
len(bits) * len(code) and the chip at position i * len(code) + j is chip j of
spreadBit(bits[i], code). -/
theorem spreadLoop_concat (dataBits code : List Int) :
    ∃ spread parts, spreadLoop dataBits code = .ok spread ∧
      List.Forall₂ (fun b chips => spreadBit b code = .ok chips) dataBits parts ∧
      spread = parts.flatten ∧
      spread.length = dataBits.length * code.length ∧
      ∀ (i j : Nat) (b : Int), dataBits[i]? = some b → j < code.length →
        ∃ chips, spreadBit b code = .ok chips ∧ spread[i * code.length + j]? = chips[j]? := by
  let parts := dataBits.map (fun b => code.map (fun c => mulInt (if b == 0 then -1 else 1) c))
  have hlen : ∀ p ∈ parts, p.length = code.length := by
    intro p hp
    obtain ⟨b, -, rfl⟩ := List.mem_map.1 hp
    simp
  refine ⟨parts.flatten, parts, ?_, ?_, rfl, ?_, ?_⟩
  · rw [spreadLoop_eq, List.flatMap_def]
  · rw [List.forall₂_map_right_iff]
    exact List.forall₂_same.2 (fun b _ => spreadBit_eq b code)
  · rw [length_flatten_uniform code.length parts hlen, List.length_map]
  · intro i j b hib hj
    refine ⟨_, spreadBit_eq b code, ?_⟩
    rw [getElem?_flatten_uniform code.length parts hlen i j hj, List.getElem?_map, hib]
    rfl

/-! ## Despreading -/

theorem dot_cons (w c : Int) (ws cs : List Int) : dot (w :: ws) (c :: cs) = w * c + dot ws cs := by
  simp [dot]

theorem dot_nil_right (ws : List Int) : dot ws [] = 0 := by
  simp [dot]

theorem wrapInt_idem (x : Int) : wrapInt (wrapInt x) = wrapInt x := by
  unfold wrapInt; omega

theorem correlate_loop (signal code : List Int) (start : Nat) :
    ∀ (cs ws : List Int) (k : Nat) (acc : Int), wrapInt acc = acc → ws.length = cs.length →
      (∀ t, t < cs.length → signal[start + (k + t)]? = ws[t]?) →
      (∀ t, t < cs.length → code[k + t]? = cs[t]?) →
      loopOver
        (fun j sum =>
          match readAt signal (start + j), readAt code j with
          | .ok a, .ok c => .ok (addInt sum (mulInt a c))
          | .error e, _ => .error e
          | _, .error e => .error e)
        (List.range' k cs.length) acc = .ok (wrapInt (acc + dot ws cs)) := by
  intro cs
  induction cs with
  | nil =>
    intro ws k acc hacc _ _ _
    simp [loopOver, dot_nil_right, hacc]
  | cons c cs ih =>
    intro ws k acc hacc hlen hs hc
    cases ws with
    | nil => simp at hlen
    | cons w ws =>
      have hs0 := hs 0 (by simp)
      have hc0 := hc 0 (by simp)
      simp only [Nat.add_zero, List.getElem?_cons_zero] at hs0 hc0
      have r1 : readAt signal (start + k) = .ok w := by simp [readAt, hs0]
      have r2 : readAt code k = .ok c := by simp [readAt, hc0]
      simp only [List.length_cons, List.range', loopOver, r1, r2]
      rw [ih ws (k + 1) (addInt acc (mulInt w c)) (by unfold addInt; exact wrapInt_idem _)
        (by simpa using hlen)
        (fun t ht => by
          have := hs (t + 1) (by simp; omega)
          rw [List.getElem?_cons_succ] at this
          rw [← this]; congr 2; omega)
        (fun t ht => by
          have := hc (t + 1) (by simp; omega)
          rw [List.getElem?_cons_succ] at this
          rw [← this]; congr 1; omega)]
      rw [dot_cons]
      congr 1
      unfold addInt mulInt wrapInt
      generalize w * c = p
      generalize dot ws cs = q
      omega

theorem correlate_eq (signal code : List Int) (start : Nat)
    (h : start + code.length ≤ signal.length) :
    correlate signal code start =
      .ok (wrapInt (dot ((signal.drop start).take code.length) code)) := by
  unfold correlate forRange
  rw [List.range_eq_range']
  rw [correlate_loop signal code start code ((signal.drop start).take code.length) 0 0 (by decide)
    (by simp; omega)
    (fun t ht => by
      rw [List.getElem?_take_of_lt ht, List.getElem?_drop, Nat.zero_add])
    (fun t _ => by rw [Nat.zero_add])]
  rw [Int.zero_add]

theorem loopOver_collect {α β : Type} (g : α → β) (body : α → List β → Except Panic (List β))
    (items : List α) (hbody : ∀ x ∈ items, ∀ acc, body x acc = .ok (acc ++ [g x])) :
    ∀ acc, loopOver body items acc = .ok (acc ++ items.map g) := by
  induction items with
  | nil => intro acc; simp [loopOver]
  | cons x xs ih =>
    intro acc
    rw [loopOver, hbody x (List.mem_cons_self _ _) acc]
    simp only []
    rw [ih (fun y hy => hbody y (List.mem_cons_of_mem _ hy))]
    simp

theorem recoverBits_eq (signal code : List Int) (h : 0 < code.length) :
    recoverBits signal code =
      .ok ((List.range (signal.length / code.length)).map
        (fun i => if wrapInt (dot (window signal code.length i) code) > 0 then (1 : Int) else 0)) := by
  unfold recoverBits
  have h0 : (code.length == 0) = false := by simpa using Nat.pos_iff_ne_zero.1 h
  simp only [h0, Bool.false_eq_true, if_false, forRange]
  rw [loopOver_collect
    (fun i => if wrapInt (dot (window signal code.length i) code) > 0 then (1 : Int) else 0)]
  · simp
  · intro i hi acc
    have hi1 : i < signal.length / code.length := List.mem_range.1 hi
    have hb : i * code.length + code.length ≤ signal.length := by
      have h1 : (i + 1) * code.length ≤ signal.length / code.length * code.length :=
        Nat.mul_le_mul_right _ hi1
      have h2 := Nat.div_mul_le_self signal.length code.length
      rw [Nat.succ_mul] at h1
      omega
    simp only [correlate_eq signal code (i * code.length) hb, window]

/-! ## Packing the recovered bits into bytes -/

theorem packByte_eq (bits : List Int) (i : Nat) (b0 b1 b2 b3 b4 b5 b6 b7 : Int) (rest : List Int)
    (h : bits.drop i = b0 :: b1 :: b2 :: b3 :: b4 :: b5 :: b6 :: b7 :: rest) :
    packByte bits i = .ok (bitsToByte [b0, b1, b2, b3, b4, b5, b6, b7]) := by
  have hj : ∀ j, bits[i + j]? = (b0 :: b1 :: b2 :: b3 :: b4 :: b5 :: b6 :: b7 :: rest)[j]? := by
    intro j; rw [← h, List.getElem?_drop]
  have h0 : readAt bits (i + 0) = .ok b0 := by unfold readAt; rw [hj 0]; simp
  have h1 : readAt bits (i + 1) = .ok b1 := by unfold readAt; rw [hj 1]; simp
  have h2 : readAt bits (i + 2) = .ok b2 := by unfold readAt; rw [hj 2]; simp
  have h3 : readAt bits (i + 3) = .ok b3 := by unfold readAt; rw [hj 3]; simp
  have h4 : readAt bits (i + 4) = .ok b4 := by unfold readAt; rw [hj 4]; simp
  have h5 : readAt bits (i + 5) = .ok b5 := by unfold readAt; rw [hj 5]; simp
  have h6 : readAt bits (i + 6) = .ok b6 := by unfold readAt; rw [hj 6]; simp
  have h7 : readAt bits (i + 7) = .ok b7 := by unfold readAt; rw [hj 7]; simp
  have hr : List.range 8 = [0, 1, 2, 3, 4, 5, 6, 7] := by decide
  unfold packByte forRange
  rw [hr]
  simp only [loopOver, h0, h1, h2, h3, h4, h5, h6, h7]
  simp only [bitsToByte, List.foldl]
  generalize (b0 == 1) = x0
  generalize (b1 == 1) = x1
  generalize (b2 == 1) = x2
  generalize (b3 == 1) = x3
  generalize (b4 == 1) = x4
  generalize (b5 == 1) = x5
  generalize (b6 == 1) = x6
  generalize (b7 == 1) = x7
  revert x0 x1 x2 x3 x4 x5 x6 x7
  decide

theorem packText_short (l : List Int) (h : l.length < 8) : packText l = [] := by
  rcases l with _ | ⟨b0, _ | ⟨b1, _ | ⟨b2, _ | ⟨b3, _ | ⟨b4, _ | ⟨b5, _ | ⟨b6, _ | ⟨b7, l⟩⟩⟩⟩⟩⟩⟩⟩ <;>
    first
    | rfl
    | (simp at h; omega)

theorem packLoop_eq (bits : List Int) :
    ∀ (n i : Nat) (bytes : List Nat), bits.length - i = n →
      packLoop bits i bytes = .ok (bytes ++ packText (bits.drop i)) := by
  intro n
  induction n using Nat.strong_induction_on with
  | _ n ih =>
    intro i bytes hn
    rw [packLoop]
    by_cases hi : i + 7 < bits.length
    · rw [if_pos hi]
      have hlen : (bits.drop i).length = bits.length - i := List.length_drop _ _
      rcases hd : bits.drop i with
        _ | ⟨b0, _ | ⟨b1, _ | ⟨b2, _ | ⟨b3, _ | ⟨b4, _ | ⟨b5, _ | ⟨b6, _ | ⟨b7, rest⟩⟩⟩⟩⟩⟩⟩⟩
      all_goals rw [hd] at hlen
      all_goals simp only [List.length_cons, List.length_nil] at hlen
      all_goals try omega
      rw [packByte_eq bits i b0 b1 b2 b3 b4 b5 b6 b7 rest hd]
      simp only []
      have hrest : bits.drop (i + 8) = rest := by
        rw [← List.drop_drop, hd]; rfl
      rw [ih (bits.length - (i + 8)) (by omega) (i + 8) _ rfl, hrest, packText]
      simp
    · rw [if_neg hi, packText_short _ (by rw [List.length_drop]; omega)]
      simp

theorem Decode_eq (ch : Channel) (code : List Int) :
    Decode ch code =
      match recoverBits ch.signal code with
      | .error e => .error e
      | .ok bits => .ok (packText bits) := by
  unfold Decode
  simp only []
  cases h : recoverBits ch.signal code with
  | error e => rfl
  | ok bits =>
    simp only []
    rw [packLoop_eq bits _ 0 [] rfl]
    simp

/-- C9: for every signal and every non-empty code of length L, Decode recovers exactly
floor(len(signal) / L) bits (and returns the text packed from them); bit i is 1 if the
dot product of window i with the code, as the int that Decode accumulates, is strictly
positive and 0 otherwise, so a dot product of zero decodes to 0. Whenever the exact
dot product fits an int it is that int. -/
theorem recoverBits_sign_test (signal code : List Int) (hL : 0 < code.length) :
    ∃ bits, recoverBits signal code = .ok bits ∧
      Decode { signal := signal } code = .ok (packText bits) ∧
      bits.length = signal.length / code.length ∧
      ∀ i, i < signal.length / code.length →
        bits[i]? = some (if 0 < wrapInt (dot (window signal code.length i) code) then 1 else 0) ∧
        (wrapInt (dot (window signal code.length i) code) = 0 → bits[i]? = some 0) ∧
        (-2 ^ 63 ≤ dot (window signal code.length i) code →
          dot (window signal code.length i) code < 2 ^ 63 →
          bits[i]? = some (if 0 < dot (window signal code.length i) code then 1 else 0)) := by
  refine ⟨_, recoverBits_eq signal code hL, ?_, by simp, ?_⟩
  · rw [Decode_eq]
    simp only [recoverBits_eq signal code hL]
  · intro i hi
    have hbit : ((List.range (signal.length / code.length)).map
        (fun i => if wrapInt (dot (window signal code.length i) code) > 0 then (1 : Int) else 0))[i]? =
        some (if 0 < wrapInt (dot (window signal code.length i) code) then 1 else 0) := by
      rw [List.getElem?_map, List.getElem?_range hi]
      rfl
    refine ⟨hbit, ?_, ?_⟩
    · intro h0
      rw [hbit, h0]; rfl
    · intro h1 h2
      rw [hbit, wrapInt_of_range h1 h2]

theorem recoverBits_sign_test_witness :
    0 < [(1 : Int), -1].length ∧
    ∃ bits, recoverBits [1, -1, -1, 1, 1, 1, 5] [1, -1] = .ok bits ∧
      Decode { signal := [1, -1, -1, 1, 1, 1, 5] } [1, -1] = .ok (packText bits) ∧
      bits.length = [(1 : Int), -1, -1, 1, 1, 1, 5].length / [(1 : Int), -1].length ∧
      ∀ i, i < [(1 : Int), -1, -1, 1, 1, 1, 5].length / [(1 : Int), -1].length →
        bits[i]? = some (if 0 < wrapInt (dot (window [1, -1, -1, 1, 1, 1, 5] [(1 : Int), -1].length i)
          [1, -1]) then 1 else 0) ∧
        (wrapInt (dot (window [1, -1, -1, 1, 1, 1, 5] [(1 : Int), -1].length i) [1, -1]) = 0 →
          bits[i]? = some 0) ∧
        (-2 ^ 63 ≤ dot (window [1, -1, -1, 1, 1, 1, 5] [(1 : Int), -1].length i) [1, -1] →
          dot (window [1, -1, -1, 1, 1, 1, 5] [(1 : Int), -1].length i) [1, -1] < 2 ^ 63 →
          bits[i]? = some (if 0 < dot (window [1, -1, -1, 1, 1, 1, 5] [(1 : Int), -1].length i)
            [1, -1] then 1 else 0)) :=
  ⟨by decide, recoverBits_sign_test [1, -1, -1, 1, 1, 1, 5] [1, -1] (by decide)⟩

theorem window_append_left (S R : List Int) (len i : Nat) (h : i * len + len ≤ S.length) :
    window (S ++ R) len i = window S len i := by
  unfold window
  rw [List.drop_append_of_le_length (by omega), List.take_append_of_le_length]
  rw [List.length_drop]; omega

/-- C10: for every non-empty code of length L, every signal S whose length is a multiple
of L and every remainder R with 0 < len(R) < L, Decode on S followed by R does not fail
and recovers the same bits and returns the same text as Decode on S alone. -/
theorem Decode_ignores_remainder (code S R : List Int) (hL : 0 < code.length)
    (hS : code.length ∣ S.length) (_hR0 : 0 < R.length) (hR : R.length < code.length) :
    ∃ bits text, recoverBits (S ++ R) code = .ok bits ∧ recoverBits S code = .ok bits ∧
      Decode { signal := S ++ R } code = .ok text ∧ Decode { signal := S } code = .ok text := by
  have hq : (S ++ R).length / code.length = S.length / code.length := by
    obtain ⟨q, hq⟩ := hS
    rw [List.length_append, hq, Nat.mul_add_div hL, Nat.mul_div_cancel_left _ hL,
      Nat.div_eq_of_lt hR, Nat.add_zero]
  have hbits : recoverBits (S ++ R) code = recoverBits S code := by
    rw [recoverBits_eq _ _ hL, recoverBits_eq _ _ hL, hq]
    congr 1
    apply List.map_congr_left
    intro i hi
    have hi1 : i < S.length / code.length := List.mem_range.1 hi
    have hb : i * code.length + code.length ≤ S.length := by
      have h1 : (i + 1) * code.length ≤ S.length / code.length * code.length :=
        Nat.mul_le_mul_right _ hi1
      have h2 := Nat.div_mul_le_self S.length code.length
      rw [Nat.succ_mul] at h1
      omega
    rw [window_append_left S R code.length i hb]
  refine ⟨_, packText ((List.range (S.length / code.length)).map
      (fun i => if wrapInt (dot (window S code.length i) code) > 0 then (1 : Int) else 0)),
    hbits.trans (recoverBits_eq S code hL), recoverBits_eq S code hL, ?_, ?_⟩
  · rw [Decode_eq]
    simp only [hbits, recoverBits_eq S code hL]
  · rw [Decode_eq]
    simp only [recoverBits_eq S code hL]

theorem Decode_ignores_remainder_witness :
    (0 < [(1 : Int), -1, 1].length ∧ [(1 : Int), -1, 1].length ∣ [(3 : Int), -3, 3, -1, 1, -1].length ∧
      0 < [(7 : Int), 9].length ∧ [(7 : Int), 9].length < [(1 : Int), -1, 1].length) ∧
    ∃ bits text, recoverBits ([3, -3, 3, -1, 1, -1] ++ [7, 9]) [1, -1, 1] = .ok bits ∧
      recoverBits [3, -3, 3, -1, 1, -1] [1, -1, 1] = .ok bits ∧
      Decode { signal := [3, -3, 3, -1, 1, -1] ++ [7, 9] } [1, -1, 1] = .ok text ∧
      Decode { signal := [3, -3, 3, -1, 1, -1] } [1, -1, 1] = .ok text :=
  ⟨by decide, Decode_ignores_remainder [1, -1, 1] [3, -3, 3, -1, 1, -1] [7, 9]
    (by decide) (by decide) (by decide) (by decide)⟩

/-! ## Superposition -/

theorem addLoop_eq :
    ∀ (signal bits : List Int), signal.length ≤ bits.length →
      addLoop signal bits = (List.zipWith addInt signal bits, none) := by
  intro signal
  induction signal with
  | nil => intro bits _; simp [addLoop]
  | cons v signal ih =>
    intro bits h
    cases bits with
    | nil => simp at h
    | cons b bits =>
      simp only [addLoop, ih bits (by simpa using h), List.zipWith_cons_cons]

theorem AddStation_fresh (s : Station) : AddStation NewChannel s = ({ signal := s.bits }, none) := by
  simp [AddStation, NewChannel]

theorem AddStation_same_length (ch : Channel) (s : Station)
    (h : ch.signal.length = s.bits.length) :
    AddStation ch s = ({ signal := List.zipWith addInt ch.signal s.bits }, none) := by
  unfold AddStation
  by_cases h0 : ch.signal.length = 0
  · have h1 : ch.signal = [] := List.length_eq_zero.1 h0
    have h2 : s.bits = [] := List.length_eq_zero.1 (by omega)
    simp [h1, h2]
  · have hb : (ch.signal.length == 0) = false := by simpa using h0
    simp only [hb, Bool.false_eq_true, if_false]
    rw [addLoop_eq ch.signal s.bits (by omega)]

/-! ## Correlation of spread and superposed signals -/

theorem dot_nil_left (cs : List Int) : dot [] cs = 0 := by
  simp [dot]

theorem dot_map_mulInt (v : Int) :
    ∀ (C D : List Int), dot (C.map (fun c => mulInt v c)) D ≡ v * dot C D [ZMOD 2 ^ 64] := by
  intro C
  induction C with
  | nil => intro D; simp [dot_nil_left]
  | cons c C ih =>
    intro D
    cases D with
    | nil => simp [dot_nil_right]
    | cons d D =>
      rw [List.map_cons, dot_cons, dot_cons, mul_add]
      refine Int.ModEq.add ?_ (ih D)
      have h := (wrapInt_modEq (v * c)).mul_right d
      rw [mul_assoc] at h
      exact h

theorem window_flatten (len : Nat) :
    ∀ (parts : List (List Int)), (∀ p ∈ parts, p.length = len) → ∀ (i : Nat) (p : List Int),
      parts[i]? = some p → window parts.flatten len i = p := by
  intro parts
  induction parts with
  | nil => intro _ i p h; simp at h
  | cons q qs ih =>
    intro hlen i p h
    have hq : q.length = len := hlen q (List.mem_cons_self _ _)
    cases i with
    | zero =>
      simp only [List.getElem?_cons_zero, Option.some.injEq] at h
      subst h
      unfold window
      rw [Nat.zero_mul, List.drop_zero, List.flatten_cons,
        List.take_append_of_le_length (by omega), List.take_of_length_le (by omega)]
    | succ i =>
      rw [List.getElem?_cons_succ] at h
      have h2 := ih (fun r hr => hlen r (List.mem_cons_of_mem _ hr)) i p h
      rw [← h2]
      unfold window
      rw [List.flatten_cons, Nat.succ_mul, List.drop_append_eq_append_drop,
        List.drop_of_length_le (by omega), List.nil_append]
      congr 2
      omega

theorem recoverBits_of_windows (signal code bits : List Int) (hL : 0 < code.length)
    (hlen : signal.length = bits.length * code.length)
    (h : ∀ (i : Nat) (b : Int), bits[i]? = some b →
      (if 0 < wrapInt (dot (window signal code.length i) code) then (1 : Int) else 0) = b) :
    recoverBits signal code = .ok bits := by
  rw [recoverBits_eq signal code hL, hlen, Nat.mul_div_cancel _ hL]
  congr 1
  apply List.ext_getElem?
  intro i
  by_cases hi : i < bits.length
  · rw [List.getElem?_map, List.getElem?_range hi, Option.map_some']
    have hb : bits[i]? = some bits[i] := List.getElem?_eq_getElem hi
    rw [hb]
    congr 1
    exact h i _ hb
  · rw [List.getElem?_eq_none (by simp; omega), List.getElem?_eq_none (by omega)]

theorem stationOf_eq (id : Int) (dataBits code : List Int) :
    stationOf id dataBits code = .ok
      { id := id, name := "", word := "", code := code,
        bits := (dataBits.map
          (fun b => code.map (fun c => mulInt (if b == 0 then -1 else 1) c))).flatten } := by
  unfold stationOf
  rw [spreadLoop_eq, List.flatMap_def]

theorem spread_windows_length (dataBits code : List Int) :
    ∀ p ∈ dataBits.map (fun b => code.map (fun c => mulInt (if b == 0 then -1 else 1) c)),
      p.length = code.length := by
  intro p hp
  obtain ⟨b, -, rfl⟩ := List.mem_map.1 hp
  simp

theorem round_trip_of_positive_self (B C : List Int) (hB : ∀ b ∈ B, b = 0 ∨ b = 1)
    (hC : 0 < wrapInt (dot C C)) :
    ∃ ch, superpose [(B, C)] NewChannel = .ok ch ∧ recoverBits ch.signal C = .ok B ∧
      Decode ch C = .ok (packText B) := by
  have hL : 0 < C.length := by
    rcases C with _ | ⟨c, C⟩
    · exact absurd hC (by decide)
    · simp
  have hrec : recoverBits (B.map
      (fun b => C.map (fun c => mulInt (if b == 0 then -1 else 1) c))).flatten C = .ok B := by
    apply recoverBits_of_windows _ _ _ hL
    · rw [length_flatten_uniform C.length _ (spread_windows_length B C), List.length_map]
    · intro i b hib
      have hw := window_flatten C.length _ (spread_windows_length B C) i
        (C.map (fun c => mulInt (if b == 0 then -1 else 1) c))
        (by rw [List.getElem?_map, hib]; rfl)
      rw [hw, wrapInt_congr (dot_map_mulInt _ C C)]
      rcases hB b (List.getElem?_mem hib) with rfl | rfl
      · simp only [beq_self_eq_true, if_true]
        revert hC
        unfold wrapInt
        generalize dot C C = d
        intro hC
        rw [if_neg (by omega)]
      · have h10 : ((1 : Int) == 0) = false := by decide
        simp only [h10, Bool.false_eq_true, if_false, one_mul, hC, if_true]
  refine ⟨_, ?_, hrec, ?_⟩
  · simp only [superpose, stationOf_eq, AddStation_fresh]
  · rw [Decode_eq]
    simp only [hrec]

/-! ## Several stations on one channel -/

theorem dot_zipWith_addInt :
    ∀ (u v c : List Int), u.length = v.length →
      dot (List.zipWith addInt u v) c ≡ dot u c + dot v c [ZMOD 2 ^ 64] := by
  intro u
  induction u with
  | nil =>
    intro v c h
    have hv : v = [] := List.length_eq_zero.1 h.symm
    subst hv
    simp [dot_nil_left]
  | cons x u ih =>
    intro v c h
    cases v with
    | nil => simp at h
    | cons y v =>
      cases c with
      | nil => simp [dot_nil_right]
      | cons z c =>
        rw [List.zipWith_cons_cons, dot_cons, dot_cons, dot_cons]
        have h1 : addInt x y * z ≡ (x + y) * z [ZMOD 2 ^ 64] := (wrapInt_modEq (x + y)).mul_right z
        have h2 := ih v c (by simpa using h)
        have h3 := h1.add h2
        have e : (x + y) * z + (dot u c + dot v c) = x * z + dot u c + (y * z + dot v c) := by ring
        rw [e] at h3
        exact h3

theorem window_zipWith (f : Int → Int → Int) (S T : List Int) (len i : Nat) :
    window (List.zipWith f S T) len i = List.zipWith f (window S len i) (window T len i) := by
  unfold window
  rw [List.drop_zipWith, List.take_zipWith]

theorem window_length (S : List Int) (len i : Nat) (h : i * len + len ≤ S.length) :
    (window S len i).length = len := by
  unfold window
  rw [List.length_take, List.length_drop]
  omega

theorem sum_map_single {α : Type} (g : α → Int) :
    ∀ (l : List α) (t : Nat) (x : α), l[t]? = some x →
      (∀ (k : Nat) (y : α), l[k]? = some y → k ≠ t → g y = 0) → (l.map g).sum = g x := by
  intro l
  induction l with
  | nil => intro t x h; simp at h
  | cons a l ih =>
    intro t x h hz
    cases t with
    | zero =>
      simp only [List.getElem?_cons_zero, Option.some.injEq] at h
      subst h
      have hrest : (l.map g).sum = 0 := by
        apply List.sum_eq_zero
        intro z hz1
        obtain ⟨y, hy, rfl⟩ := List.mem_map.1 hz1
        obtain ⟨k, hk⟩ := List.getElem?_of_mem hy
        exact hz (k + 1) y (by rw [List.getElem?_cons_succ]; exact hk) (by omega)
      rw [List.map_cons, List.sum_cons, hrest, add_zero]
    | succ t =>
      rw [List.getElem?_cons_succ] at h
      have h0 : g a = 0 := hz 0 a (List.getElem?_cons_zero ..) (by omega)
      rw [List.map_cons, List.sum_cons, h0, zero_add]
      exact ih t x h (fun k y hk hkt => hz (k + 1) y (by rw [List.getElem?_cons_succ]; exact hk)
        (by omega))

theorem dot_self_of_unit (c : List Int) (h : ∀ x ∈ c, x = 1 ∨ x = -1) :
    dot c c = (c.length : Int) := by
  induction c with
  | nil => simp [dot]
  | cons x c ih =>
    rw [dot_cons, ih (fun y hy => h y (List.mem_cons_of_mem _ hy)), List.length_cons]
    rcases h x (List.mem_cons_self _ _) with rfl | rfl <;> push_cast <;> ring

/-- C5: for any sequence B of 0/1 bits and any code C, a non-empty sequence of +1 and -1
values (of a length below 2^63, as every slice is), when the signal of a fresh Channel
is the spread of B with C after one AddStation, the bits that Decode recovers with C are
exactly B, and Decode returns the text packed from B. -/
theorem single_station_round_trip (B C : List Int) (hB : ∀ b ∈ B, b = 0 ∨ b = 1)
    (hL : 0 < C.length) (hN : (C.length : Int) < 2 ^ 63) (hC : ∀ c ∈ C, c = 1 ∨ c = -1) :
    ∃ ch, superpose [(B, C)] NewChannel = .ok ch ∧ recoverBits ch.signal C = .ok B ∧
      Decode ch C = .ok (packText B) := by
  apply round_trip_of_positive_self B C hB
  have hL1 : (0 : Int) < (C.length : Int) := by exact_mod_cast hL
  rw [dot_self_of_unit C hC, wrapInt_of_range (by omega) hN]
  exact hL1

theorem single_station_round_trip_witness :
    ((∀ b ∈ [(1 : Int), 0, 1], b = 0 ∨ b = 1) ∧ 0 < [(1 : Int), -1].length ∧
      (([(1 : Int), -1].length : Nat) : Int) < 2 ^ 63 ∧ ∀ c ∈ [(1 : Int), -1], c = 1 ∨ c = -1) ∧
    ∃ ch, superpose [([1, 0, 1], [1, -1])] NewChannel = .ok ch ∧
      recoverBits ch.signal [1, -1] = .ok [1, 0, 1] ∧
      Decode ch [1, -1] = .ok (packText [1, 0, 1]) :=
  ⟨by decide, single_station_round_trip [1, 0, 1] [1, -1] (by decide) (by decide) (by decide)
    (by decide)⟩

theorem superpose_windows (N M : Nat) :
    ∀ (rest : List (List Int × List Int)) (S : List Int) (f : Nat → List Int → Int),
      (∀ pr ∈ rest, pr.2.length = N ∧ pr.1.length = M) →
      S.length = M * N →
      (∀ i, i < M → ∀ c : List Int, c.length = N → dot (window S N i) c ≡ f i c [ZMOD 2 ^ 64]) →
      ∃ ch, superpose rest { signal := S } = .ok ch ∧ ch.signal.length = M * N ∧
        ∀ i, i < M → ∀ c : List Int, c.length = N →
          dot (window ch.signal N i) c ≡
            f i c + (rest.map (fun pr =>
              (if pr.1.getD i 0 == 0 then -1 else 1) * dot pr.2 c)).sum [ZMOD 2 ^ 64] := by
  intro rest
  induction rest with
  | nil =>
    intro S f _ hS hf
    exact ⟨{ signal := S }, rfl, hS, fun i hi c hc => by simpa using hf i hi c hc⟩
  | cons pr rest ih =>
    intro S f hshape hS hf
    obtain ⟨hpN, hpM⟩ := hshape pr (List.mem_cons_self _ _)
    have hparts := spread_windows_length pr.1 pr.2
    rw [hpN] at hparts
    have hchips : ((pr.1.map (fun b => pr.2.map
        (fun c => mulInt (if b == 0 then -1 else 1) c))).flatten).length = M * N := by
      rw [length_flatten_uniform N _ hparts, List.length_map, hpM]
    have hstep : ∀ i, i < M → ∀ c : List Int, c.length = N →
        dot (window (List.zipWith addInt S ((pr.1.map (fun b => pr.2.map
          (fun c => mulInt (if b == 0 then -1 else 1) c))).flatten)) N i) c ≡
          f i c + (if pr.1.getD i 0 == 0 then -1 else 1) * dot pr.2 c [ZMOD 2 ^ 64] := by
      intro i hi c hc
      have hb : i * N + N ≤ M * N := by
        have : (i + 1) * N ≤ M * N := Nat.mul_le_mul_right _ hi
        rw [Nat.succ_mul] at this
        exact this
      have hi1 : i < pr.1.length := by omega
      have hw := window_flatten N _ hparts i
        (pr.2.map (fun c => mulInt (if pr.1.getD i 0 == 0 then -1 else 1) c))
        (by
          rw [List.getElem?_map, List.getElem?_eq_getElem hi1, Option.map_some']
          rw [List.getD_eq_getElem _ _ hi1])
      rw [window_zipWith]
      refine (dot_zipWith_addInt _ _ c ?_).trans ?_
      · rw [window_length S N i (by omega), window_length _ N i (by omega)]
      · rw [hw]
        exact (hf i hi c hc).add (dot_map_mulInt _ pr.2 c)
    obtain ⟨ch, h1, h2, h3⟩ := ih _ _ (fun q hq => hshape q (List.mem_cons_of_mem _ hq))
      (by rw [List.length_zipWith, hS, hchips, Nat.min_self]) hstep
    refine ⟨ch, ?_, h2, ?_⟩
    · rw [superpose, stationOf_eq]
      simp only []
      rw [AddStation_same_length _ _ (by simp only []; rw [hS, hchips])]
      exact h1
    · intro i hi c hc
      have := h3 i hi c hc
      rw [List.map_cons, List.sum_cons, ← add_assoc]
      exact this

theorem superpose_fresh_windows (N M : Nat) (pairs : List (List Int × List Int))
    (hshape : ∀ pr ∈ pairs, pr.2.length = N ∧ pr.1.length = M) (hne : pairs ≠ []) :
    ∃ ch, superpose pairs NewChannel = .ok ch ∧ ch.signal.length = M * N ∧
      ∀ i, i < M → ∀ c : List Int, c.length = N →
        dot (window ch.signal N i) c ≡
          (pairs.map (fun pr =>
            (if pr.1.getD i 0 == 0 then -1 else 1) * dot pr.2 c)).sum [ZMOD 2 ^ 64] := by
  cases pairs with
  | nil => exact absurd rfl hne
  | cons pr rest =>
    obtain ⟨hpN, hpM⟩ := hshape pr (List.mem_cons_self _ _)
    have hparts := spread_windows_length pr.1 pr.2
    rw [hpN] at hparts
    have hchips : ((pr.1.map (fun b => pr.2.map
        (fun c => mulInt (if b == 0 then -1 else 1) c))).flatten).length = M * N := by
      rw [length_flatten_uniform N _ hparts, List.length_map, hpM]
    have hfirst : ∀ i, i < M → ∀ c : List Int, c.length = N →
        dot (window ((pr.1.map (fun b => pr.2.map
          (fun c => mulInt (if b == 0 then -1 else 1) c))).flatten) N i) c ≡
          (if pr.1.getD i 0 == 0 then -1 else 1) * dot pr.2 c [ZMOD 2 ^ 64] := by
      intro i hi c _
      have hi1 : i < pr.1.length := by omega
      have hw := window_flatten N _ hparts i
        (pr.2.map (fun c => mulInt (if pr.1.getD i 0 == 0 then -1 else 1) c))
        (by
          rw [List.getElem?_map, List.getElem?_eq_getElem hi1, Option.map_some']
          rw [List.getD_eq_getElem _ _ hi1])
      rw [hw]
      exact dot_map_mulInt _ pr.2 c
    obtain ⟨ch, h1, h2, h3⟩ := superpose_windows N M rest _ _
      (fun q hq => hshape q (List.mem_cons_of_mem _ hq)) hchips hfirst
    refine ⟨ch, ?_, h2, ?_⟩
    · rw [superpose, stationOf_eq]
      simp only []
      rw [AddStation_fresh]
      exact h1
    · intro i hi c hc
      rw [List.map_cons, List.sum_cons]
      exact h3 i hi c hc

/-- C1: for every N >= 1 that is the length of a slice, every K mutually orthogonal codes
of length N with entries +1 or -1 and every K sequences of 0/1 bits of one common length M,
spreading each bit sequence with its code and adding the K stations to a fresh Channel
succeeds, and for each station the bits that Decode recovers with that station's own code
are exactly its original bit sequence (so Decode returns the text packed from them).
The bound K <= N is a consequence of orthogonality and is not needed. -/
theorem multi_station_round_trip (N M : Nat) (codes bitss : List (List Int))
    (hN : 1 ≤ N) (hN63 : (N : Int) < 2 ^ 63) (_hlen : bitss.length = codes.length)
    (hcodes : ∀ c ∈ codes, c.length = N ∧ ∀ x ∈ c, x = 1 ∨ x = -1)
    (horth : ∀ (a b : Nat) (ca cb : List Int), codes[a]? = some ca → codes[b]? = some cb →
      a ≠ b → dot ca cb = 0)
    (hbits : ∀ bs ∈ bitss, bs.length = M ∧ ∀ b ∈ bs, b = 0 ∨ b = 1) :
    ∃ ch, superpose (bitss.zip codes) NewChannel = .ok ch ∧
      ∀ (k : Nat) (code bits : List Int), codes[k]? = some code → bitss[k]? = some bits →
        recoverBits ch.signal code = .ok bits ∧ Decode ch code = .ok (packText bits) := by
  have hshape : ∀ pr ∈ bitss.zip codes, pr.2.length = N ∧ pr.1.length = M := by
    rintro ⟨bs, c⟩ hpr
    obtain ⟨h1, h2⟩ := List.of_mem_zip hpr
    exact ⟨(hcodes c h2).1, (hbits bs h1).1⟩
  by_cases hne : bitss.zip codes = []
  · refine ⟨NewChannel, by rw [hne]; rfl, ?_⟩
    intro k code bits hc hb
    have hz : (bitss.zip codes)[k]? = some (bits, code) :=
      List.getElem?_zip_eq_some.2 ⟨hb, hc⟩
    rw [hne] at hz
    simp at hz
  · obtain ⟨ch, h1, h2, h3⟩ := superpose_fresh_windows N M _ hshape hne
    refine ⟨ch, h1, ?_⟩
    intro k code bits hc hb
    have hz : (bitss.zip codes)[k]? = some (bits, code) :=
      List.getElem?_zip_eq_some.2 ⟨hb, hc⟩
    obtain ⟨hcN, hcU⟩ := hcodes code (List.getElem?_mem hc)
    obtain ⟨hbM, hb01⟩ := hbits bits (List.getElem?_mem hb)
    have hrec : recoverBits ch.signal code = .ok bits := by
      apply recoverBits_of_windows _ _ _ (by omega)
      · rw [h2, hbM, hcN]
      · intro i b hib
        have hi : i < M := by
          rw [← hbM]
          exact (List.getElem?_eq_some.1 hib).1
        have hsum := sum_map_single
          (fun (pr : List Int × List Int) => (if pr.1.getD i 0 == 0 then -1 else 1) * dot pr.2 code)
          (bitss.zip codes) k (bits, code) hz
          (by
            intro k1 y hy hk1
            obtain ⟨-, hy2⟩ := List.getElem?_zip_eq_some.1 hy
            simp only [horth k1 k y.2 code hy2 hc hk1, mul_zero])
        have hmod := h3 i hi code hcN
        rw [hsum] at hmod
        simp only [] at hmod
        have hgetD : bits.getD i 0 = b := by
          rw [List.getD_eq_getElem?_getD, hib]; rfl
        rw [hgetD, dot_self_of_unit code hcU, hcN] at hmod
        rw [hcN]
        have hb01i := hb01 b (List.getElem?_mem hib)
        rcases hb01i with rfl | rfl
        · rw [wrapInt_eq_of_modEq hmod (by simp; omega) (by simp; omega)]
          simp
        · rw [wrapInt_eq_of_modEq hmod (by simp; omega) (by simp; omega)]
          simp
          omega
    refine ⟨hrec, ?_⟩
    rw [Decode_eq]
    simp only [hrec]

theorem multi_station_round_trip_witness :
    (1 ≤ 2 ∧ ((2 : Nat) : Int) < 2 ^ 63 ∧
      [[(1 : Int), 0, 1], [0, 0, 1]].length = [[(1 : Int), 1], [1, -1]].length ∧
      (∀ c ∈ [[(1 : Int), 1], [1, -1]], c.length = 2 ∧ ∀ x ∈ c, x = 1 ∨ x = -1) ∧
      (∀ (a b : Nat) (ca cb : List Int), [[(1 : Int), 1], [1, -1]][a]? = some ca →
        [[(1 : Int), 1], [1, -1]][b]? = some cb → a ≠ b → dot ca cb = 0) ∧
      (∀ bs ∈ [[(1 : Int), 0, 1], [0, 0, 1]], bs.length = 3 ∧ ∀ b ∈ bs, b = 0 ∨ b = 1)) ∧
    ∃ ch, superpose ([[(1 : Int), 0, 1], [0, 0, 1]].zip [[(1 : Int), 1], [1, -1]]) NewChannel = .ok ch ∧
      ∀ (k : Nat) (code bits : List Int), [[(1 : Int), 1], [1, -1]][k]? = some code →
        [[(1 : Int), 0, 1], [0, 0, 1]][k]? = some bits →
        recoverBits ch.signal code = .ok bits ∧ Decode ch code = .ok (packText bits) := by
  have horth : ∀ (a b : Nat) (ca cb : List Int), [[(1 : Int), 1], [1, -1]][a]? = some ca →
      [[(1 : Int), 1], [1, -1]][b]? = some cb → a ≠ b → dot ca cb = 0 := by
    intro a b ca cb ha hb hab
    rcases a with _ | _ | a <;> rcases b with _ | _ | b <;> simp at ha hb hab <;>
      subst ha <;> subst hb <;> decide
  exact ⟨⟨by decide, by decide, by decide, by decide, horth, by decide⟩,
    multi_station_round_trip 2 3 [[1, 1], [1, -1]] [[1, 0, 1], [0, 0, 1]]
      (by decide) (by decide) (by decide) (by decide) horth (by decide)⟩

/-! ## The Walsh matrix: what the loops build -/

theorem writeCell_loop (g : Nat → Int) (A B : List (List Int)) :
    ∀ (js : List Nat) (row : List Int),
      loopOver (fun j m1 => writeCell m1 A.length j (g j)) js (A ++ row :: B) =
        match loopOver (fun j r => writeAt r j (g j)) js row with
        | .ok r => .ok (A ++ r :: B)
        | .error e => .error e := by
  intro js
  induction js with
  | nil => intro row; rfl
  | cons j js ih =>
    intro row
    have hread : readAt (A ++ row :: B) A.length = .ok row := by
      unfold readAt
      rw [List.getElem?_append_right (Nat.le_refl _)]
      simp
    simp only [loopOver, writeCell, hread]
    cases hw : writeAt row j (g j) with
    | error e => rfl
    | ok row1 =>
      simp only [writeAt_length_append]
      exact ih row1

theorem fill_row (g : Nat → Int) (row : List Int) :
    loopOver (fun j r => writeAt r j (g j)) (List.range row.length) row =
      .ok ((List.range row.length).map g) := by
  have h := loopOver_fill (fun (j : Nat) => j) g (fun j r => writeAt r j (g j)) (fun _ => True)
    (fun x A b B hx _ => by
      have hx1 : x = A.length := hx
      rw [hx1]; exact writeAt_length_append A b _ B)
    (List.range row.length) [] row (by simp [List.range_eq_range']) (fun _ _ => trivial)
  simpa using h

/-- The matrix of the closed form, row by row. -/
theorem makeSlice_ok {α : Type} (elemSize : Int) (zero : α) (n : Int) (hn : 0 ≤ n)
    (hmem : elemSize * n ≤ maxAlloc) :
    makeSlice elemSize zero n = .ok (List.replicate n.toNat zero) := by
  unfold makeSlice
  rw [if_neg (by omega)]

theorem makeSlice_too_large {α : Type} (elemSize : Int) (zero : α) (n : Int)
    (hmem : maxAlloc < elemSize * n) :
    makeSlice elemSize zero n = .error .makesliceLenOutOfRange := by
  unfold makeSlice
  rw [if_pos (Or.inr hmem)]

theorem walshMatrix_eq (n : Int) (hcheck : (n == 0 || andInt n (subInt n 1) != 0) = false)
    (hn : 0 ≤ n) (hmem : 24 * n ≤ maxAlloc) :
    walshMatrix n = .ok ((List.range n.toNat).map
      (fun i => (List.range n.toNat).map (fun j => walshEntry i j))) := by
  unfold walshMatrix
  rw [hcheck, makeSlice_ok 24 _ n hn hmem, makeSlice_ok 8 _ n hn (by omega)]
  simp only [Bool.false_eq_true, if_false, List.length_replicate]
  have hinit : forRange n.toNat (fun i m => writeAt m i (List.replicate n.toNat (0 : Int)))
      (List.replicate n.toNat ([] : List Int)) =
      .ok (List.replicate n.toNat (List.replicate n.toNat (0 : Int))) := by
    unfold forRange
    have h := loopOver_fill (fun (i : Nat) => i) (fun _ => List.replicate n.toNat (0 : Int))
      (fun i m => writeAt m i (List.replicate n.toNat (0 : Int))) (fun _ => True)
      (fun x A b B hx _ => by
        have hx1 : x = A.length := hx
        rw [hx1]; exact writeAt_length_append A b _ B)
      (List.range n.toNat) [] (List.replicate n.toNat ([] : List Int))
      (by simp [List.range_eq_range']) (fun _ _ => trivial)
    rw [List.nil_append] at h
    rw [h]
    congr 1
    apply List.ext_getElem?
    intro i
    by_cases hi : i < n.toNat
    · simp [List.getElem?_replicate, List.getElem?_range, hi]
    · simp [List.getElem?_replicate, hi]
  rw [hinit]
  simp only []
  unfold forRange
  have h := loopOver_fill (fun (i : Nat) => i)
    (fun i => (List.range n.toNat).map (fun j => walshEntry i j))
    (fun i m => loopOver (fun j m1 => writeCell m1 i j (walshEntry i j)) (List.range n.toNat) m)
    (fun row => row.length = n.toNat)
    (fun x A b B hx hb => by
      have hx1 : x = A.length := hx
      rw [hx1]
      show loopOver (fun j m1 => writeCell m1 A.length j (walshEntry A.length j))
        (List.range n.toNat) (A ++ b :: B) = _
      rw [writeCell_loop (fun j => walshEntry A.length j) A B (List.range n.toNat) b]
      have hrow := fill_row (fun j => walshEntry A.length j) b
      rw [hb] at hrow
      rw [hrow])
    (List.range n.toNat) [] (List.replicate n.toNat (List.replicate n.toNat (0 : Int)))
    (by simp [List.range_eq_range'])
    (fun b hb => by rw [List.eq_of_mem_replicate hb]; simp)
  rw [List.nil_append] at h
  rw [h]
  rfl

/-! ## Bit patterns -/

theorem toUint_natCast (m : Nat) (h : m < 2 ^ 64) : toUint (m : Int) = m := by
  unfold toUint
  have h1 : ((m : Int) % 18446744073709551616) = (m : Int) :=
    Int.emod_eq_of_lt (Int.natCast_nonneg m) (by exact_mod_cast h)
  rw [h1, Int.toNat_natCast]

theorem andInt_natCast (i j : Nat) (hi : i < 2 ^ 63) (hj : j < 2 ^ 63) :
    andInt (i : Int) (j : Int) = ((i &&& j : Nat) : Int) := by
  unfold andInt
  rw [toUint_natCast i (by omega), toUint_natCast j (by omega)]
  have hle : i &&& j ≤ i := Nat.and_le_left
  apply wrapInt_of_range
  · have := Int.natCast_nonneg (i &&& j)
    omega
  · have : ((i &&& j : Nat) : Int) < ((2 ^ 63 : Nat) : Int) := by
      exact_mod_cast (lt_of_le_of_lt hle hi)
    simpa using this

theorem two_pow_and_pred (k : Nat) : 2 ^ k &&& (2 ^ k - 1) = 0 := by
  apply Nat.eq_of_testBit_eq
  intro t
  rw [Nat.testBit_land, Nat.testBit_two_pow, Nat.testBit_two_pow_sub_one, Nat.zero_testBit]
  by_cases h : k = t
  · simp [h]
  · simp [h]

theorem walsh_check_two_pow (k : Nat) (hk : k ≤ 62) :
    (((2 : Int) ^ k) == 0 || andInt ((2 : Int) ^ k) (subInt ((2 : Int) ^ k) 1) != 0) = false := by
  have hpos : 0 < 2 ^ k := Nat.two_pow_pos k
  have hlt : 2 ^ k ≤ 2 ^ 62 := Nat.pow_le_pow_right (by decide) hk
  have hcast : ((2 : Int) ^ k) = ((2 ^ k : Nat) : Int) := by push_cast; rfl
  have hsub : subInt ((2 : Int) ^ k) 1 = ((2 ^ k - 1 : Nat) : Int) := by
    unfold subInt
    rw [hcast, wrapInt_of_range (by omega) (by omega)]
    omega
  have hand : andInt ((2 : Int) ^ k) (subInt ((2 : Int) ^ k) 1) = 0 := by
    rw [hsub, hcast, andInt_natCast _ _ (by omega) (by omega), two_pow_and_pred]
    rfl
  have hne : ((2 : Int) ^ k) ≠ 0 := by
    rw [hcast]; omega
  simp [hand, hne]

/-! ## Population count -/

theorem onesCountAux_eq_sum (fuel : Nat) :
    ∀ x, onesCountAux fuel x = ∑ t in Finset.range fuel, (if x.testBit t then 1 else 0) := by
  induction fuel with
  | zero => intro x; simp [onesCountAux]
  | succ f ih =>
    intro x
    rw [onesCountAux, ih, Finset.sum_range_succ']
    have h0 : x % 2 = if x.testBit 0 then 1 else 0 := by
      rw [Nat.testBit_zero]
      rcases Nat.mod_two_eq_zero_or_one x with h | h <;> simp [h]
    rw [← h0, Nat.add_comm]
    congr 1
    apply Finset.sum_congr rfl
    intro t _
    rw [Nat.testBit_succ]

theorem onesCountAux_eq_setBits (fuel : Nat) :
    ∀ x, x < 2 ^ fuel → onesCountAux fuel x = setBits x := by
  induction fuel with
  | zero =>
    intro x hx
    have : x = 0 := by simpa using hx
    subst this
    simp [onesCountAux, setBits]
  | succ f ih =>
    intro x hx
    rw [onesCountAux, ih (x / 2) (by rw [Nat.pow_succ] at hx; omega)]
    unfold setBits
    by_cases h0 : x = 0
    · subst h0; simp
    · rw [Nat.digits_def' (by decide) (Nat.pos_of_ne_zero h0), List.sum_cons]

theorem onesCount_eq_setBits (x : Nat) (hx : x < 2 ^ 64) : onesCount x = setBits x :=
  onesCountAux_eq_setBits 64 x hx

theorem walshEntry_eq (i j : Nat) (hi : i < 2 ^ 63) (hj : j < 2 ^ 63) :
    walshEntry i j = if onesCount (i &&& j) % 2 = 0 then 1 else -1 := by
  unfold walshEntry
  have hle : i &&& j ≤ i := Nat.and_le_left
  simp only [andInt_natCast i j hi hj, toUint_natCast (i &&& j) (by omega)]
  by_cases h : onesCount (i &&& j) % 2 = 0
  · simp [h]
  · simp [h]

theorem testBit_two_pow_add (k j : Nat) (hj : j < 2 ^ k) (t : Nat) :
    (2 ^ k + j).testBit t = (j.testBit t || decide (t = k)) := by
  rcases Nat.lt_trichotomy t k with h | h | h
  · rw [Nat.testBit_two_pow_add_gt h]
    simp [Nat.ne_of_lt h]
  · subst h
    rw [Nat.testBit_two_pow_add_eq, Nat.testBit_lt_two_pow hj]
    simp
  · have h1 : 2 ^ k + j < 2 ^ t := by
      have : 2 ^ (k + 1) ≤ 2 ^ t := Nat.pow_le_pow_right (by decide) h
      rw [Nat.pow_succ] at this
      omega
    have h2 : j < 2 ^ t := by omega
    rw [Nat.testBit_lt_two_pow h1, Nat.testBit_lt_two_pow h2]
    simp [Nat.ne_of_gt h]

theorem onesCount_and_two_pow_add (a k j : Nat) (hk : k < 64) (hj : j < 2 ^ k) :
    onesCount (a &&& (2 ^ k + j)) = onesCount (a &&& j) + (if a.testBit k then 1 else 0) := by
  unfold onesCount
  rw [onesCountAux_eq_sum, onesCountAux_eq_sum]
  have hk1 : (if a.testBit k then 1 else 0) =
      ∑ t in Finset.range 64, (if t = k then (if a.testBit k then 1 else 0) else 0) := by
    rw [Finset.sum_ite_eq' (Finset.range 64) k, if_pos (Finset.mem_range.2 hk)]
  rw [hk1, ← Finset.sum_add_distrib]
  apply Finset.sum_congr rfl
  intro t _
  rw [Nat.testBit_land, Nat.testBit_land, testBit_two_pow_add k j hj t]
  by_cases htk : t = k
  · subst htk
    rw [Nat.testBit_lt_two_pow hj]
    cases a.testBit t <;> simp
  · cases a.testBit t <;> cases j.testBit t <;> simp [htk]

/-! ## Orthogonality of the rows -/

theorem parity_sign_succ (x : Nat) :
    (if (x + 1) % 2 = 0 then (1 : Int) else -1) = -(if x % 2 = 0 then (1 : Int) else -1) := by
  rcases Nat.mod_two_eq_zero_or_one x with h | h
  · have h1 : (x + 1) % 2 = 1 := by omega
    simp [h, h1]
  · have h1 : (x + 1) % 2 = 0 := by omega
    simp [h, h1]

theorem sign_and_two_pow_add (a k j : Nat) (hk : k < 64) (hj : j < 2 ^ k) :
    (if onesCount (a &&& (2 ^ k + j)) % 2 = 0 then (1 : Int) else -1) =
      (if onesCount (a &&& j) % 2 = 0 then (1 : Int) else -1) *
        (if a.testBit k then -1 else 1) := by
  rw [onesCount_and_two_pow_add a k j hk hj]
  generalize onesCount (a &&& j) = x
  cases a.testBit k with
  | true =>
    rw [if_pos rfl, if_pos rfl, parity_sign_succ]
    ring
  | false =>
    rw [if_neg Bool.false_ne_true, if_neg Bool.false_ne_true, Nat.add_zero, mul_one]

theorem orth_sum_gen (e : Nat → Nat → Int) (h0 : ∀ a, e a 0 = 1)
    (hstep : ∀ a k j, k < 64 → j < 2 ^ k →
      e a (2 ^ k + j) = e a j * (if a.testBit k then -1 else 1))
    (k : Nat) (hk : k ≤ 64) :
    ∀ a b : Nat,
      ((∑ j in Finset.range (2 ^ k), e a j * e b j) = 2 ^ k ∧
        ∀ t, t < k → a.testBit t = b.testBit t) ∨
      ((∑ j in Finset.range (2 ^ k), e a j * e b j) = 0 ∧
        ∃ t, t < k ∧ a.testBit t ≠ b.testBit t) := by
  induction k with
  | zero =>
    intro a b
    left
    refine ⟨?_, fun t ht => absurd ht (Nat.not_lt_zero t)⟩
    rw [Nat.pow_zero, Finset.sum_range_one, h0, h0]
    rfl
  | succ k ih =>
    intro a b
    have hsplit : (∑ j in Finset.range (2 ^ (k + 1)), e a j * e b j) =
        (1 + (if a.testBit k then -1 else 1) * (if b.testBit k then -1 else 1)) *
          (∑ j in Finset.range (2 ^ k), e a j * e b j) := by
      have h2 : 2 ^ (k + 1) = 2 ^ k + 2 ^ k := by rw [Nat.pow_succ]; omega
      rw [h2, Finset.sum_range_add, add_mul, one_mul, Finset.mul_sum]
      congr 1
      apply Finset.sum_congr rfl
      intro j hj
      have hj1 : j < 2 ^ k := Finset.mem_range.1 hj
      rw [hstep a k j (by omega) hj1, hstep b k j (by omega) hj1]
      ring
    rw [hsplit]
    rcases ih (by omega) a b with ⟨hs, hbits⟩ | ⟨hs, t, ht, hne⟩
    · by_cases hab : a.testBit k = b.testBit k
      · left
        constructor
        · have hσ : (if a.testBit k then (-1 : Int) else 1) * (if b.testBit k then -1 else 1) = 1 := by
            rw [hab]
            cases b.testBit k <;> simp
          rw [hs, hσ, pow_succ]
          ring
        · intro t ht
          rcases Nat.lt_succ_iff_lt_or_eq.1 ht with h | h
          · exact hbits t h
          · rw [h]; exact hab
      · right
        constructor
        · have hσ : (if a.testBit k then (-1 : Int) else 1) * (if b.testBit k then -1 else 1) = -1 := by
            cases ha : a.testBit k <;> cases hb : b.testBit k <;> simp_all
          rw [hσ]
          ring
        · exact ⟨k, Nat.lt_succ_self k, hab⟩
    · right
      exact ⟨by rw [hs, mul_zero], t, Nat.lt_succ_of_lt ht, hne⟩

theorem onesCount_zero : onesCount 0 = 0 := by decide

theorem orth_sum_eq (k : Nat) (hk : k ≤ 64) (a b : Nat) (ha : a < 2 ^ k) (hb : b < 2 ^ k) :
    (∑ j in Finset.range (2 ^ k),
        (if onesCount (a &&& j) % 2 = 0 then (1 : Int) else -1) *
          (if onesCount (b &&& j) % 2 = 0 then (1 : Int) else -1)) =
      if a = b then 2 ^ k else 0 := by
  rcases orth_sum_gen (fun a j => if onesCount (a &&& j) % 2 = 0 then (1 : Int) else -1)
    (fun a => by
      show (if onesCount (a &&& 0) % 2 = 0 then (1 : Int) else -1) = 1
      rw [Nat.and_zero, onesCount_zero]
      rfl)
    (fun a k j hk hj => sign_and_two_pow_add a k j hk hj) k hk a b with
    ⟨hs, hbits⟩ | ⟨hs, t, _, hne⟩
  · have hab : a = b := by
      apply Nat.eq_of_testBit_eq
      intro t
      by_cases ht : t < k
      · exact hbits t ht
      · have h1 : 2 ^ k ≤ 2 ^ t := Nat.pow_le_pow_right (by decide) (by omega)
        rw [Nat.testBit_lt_two_pow (by omega), Nat.testBit_lt_two_pow (by omega)]
    rw [if_pos hab]
    exact hs
  · have hab : a ≠ b := fun h => hne (by rw [h])
    rw [if_neg hab]
    exact hs

theorem dot_map_map {α : Type} (f g : α → Int) (l : List α) :
    dot (l.map f) (l.map g) = (l.map (fun x => f x * g x)).sum := by
  induction l with
  | nil => simp [dot]
  | cons x l ih => rw [List.map_cons, List.map_cons, dot_cons, ih, List.map_cons, List.sum_cons]

theorem sum_map_range (h : Nat → Int) (n : Nat) :
    ((List.range n).map h).sum = ∑ j in Finset.range n, h j := by
  induction n with
  | zero => simp
  | succ n ih =>
    rw [List.range_succ, List.map_append, List.sum_append, ih, Finset.sum_range_succ]
    simp

/-! ## The generated code set -/

theorem toNat_two_pow (k : Nat) : ((2 : Int) ^ k).toNat = 2 ^ k := by
  have hcast : ((2 : Int) ^ k) = ((2 ^ k : Nat) : Int) := by push_cast; rfl
  rw [hcast, Int.toNat_natCast]

theorem two_pow_fits (k : Nat) (hk : k ≤ 43) : 24 * (2 : Int) ^ k ≤ maxAlloc := by
  have h : (2 : Int) ^ k ≤ 2 ^ 43 := pow_le_pow_right₀ (by decide) hk
  unfold maxAlloc
  omega

theorem two_pow_exceeds (k : Nat) (hk : 44 ≤ k) : maxAlloc < 24 * (2 : Int) ^ k := by
  have h : (2 : Int) ^ 44 ≤ 2 ^ k := pow_le_pow_right₀ (by decide) hk
  unfold maxAlloc
  omega

theorem walshMatrix_two_pow (k : Nat) (hk : k ≤ 43) :
    walshMatrix ((2 : Int) ^ k) = .ok ((List.range (2 ^ k)).map
      (fun i => (List.range (2 ^ k)).map (fun j => walshEntry i j))) := by
  rw [walshMatrix_eq _ (walsh_check_two_pow k (by omega)) (by positivity) (two_pow_fits k hk),
    toNat_two_pow]

theorem walshMatrix_too_large (n : Int) (hmem : maxAlloc < 24 * n) :
    walshMatrix n = .error .invalidSize ∨ walshMatrix n = .error .makesliceLenOutOfRange := by
  unfold walshMatrix
  rw [makeSlice_too_large 24 _ n hmem]
  by_cases h : (n == 0 || andInt n (subInt n 1) != 0) = true
  · left; rw [if_pos h]
  · right; rw [if_neg h]

theorem walshMatrix_two_pow_large (k : Nat) (hk : 44 ≤ k) (hk2 : k ≤ 62) :
    walshMatrix ((2 : Int) ^ k) = .error .makesliceLenOutOfRange := by
  unfold walshMatrix
  rw [walsh_check_two_pow k hk2, makeSlice_too_large 24 _ _ (two_pow_exceeds k hk)]
  rfl

theorem walshMatrix_ok_two_pow (k : Nat) (m : List (List Int))
    (h : walshMatrix ((2 : Int) ^ k) = .ok m) :
    k ≤ 43 ∧ m = (List.range (2 ^ k)).map
      (fun i => (List.range (2 ^ k)).map (fun j => walshEntry i j)) := by
  by_cases hk : k ≤ 43
  · rw [walshMatrix_two_pow k hk] at h
    exact ⟨hk, (Except.ok.inj h).symm⟩
  · rcases walshMatrix_too_large _ (two_pow_exceeds k (by omega)) with h1 | h1 <;>
      rw [h1] at h <;> cases h

/-- C3 (as stated, refuted): 2^44 is a strictly positive power of two that passes the
guard of walshMatrix, yet walshMatrix(2^44) does not return: make([][]int, n) asks for
24 * 2^44 bytes, more than maxAlloc, and panics. -/
theorem walshMatrix_large_counterexample :
    walshMatrix ((2 : Int) ^ 44) = .error .makesliceLenOutOfRange ∧
    ¬ ∃ m, walshMatrix ((2 : Int) ^ 44) = .ok m := by
  have h := walshMatrix_two_pow_large 44 (by decide) (by decide)
  refine ⟨h, ?_⟩
  rintro ⟨m, hm⟩
  rw [h] at hm
  cases hm

/-- C3 (amended): for every n = 2^k whose slice of n rows make accepts (k <= 43),
walshMatrix(n) returns, without failing, exactly n rows of exactly n entries each, and
the entry m[i][j] is +1 if the number of set bits of (i AND j) is even and -1 if it is
odd; hence every entry is +1 or -1. For every larger power of two that an int holds
(44 <= k <= 62) walshMatrix(n) fails inside make and returns no matrix. -/
theorem walshMatrix_closed_form (k : Nat) :
    (k ≤ 43 →
      ∃ m, walshMatrix ((2 : Int) ^ k) = .ok m ∧ m.length = 2 ^ k ∧
        (∀ row ∈ m, row.length = 2 ^ k ∧ ∀ x ∈ row, x = 1 ∨ x = -1) ∧
        ∀ i j, i < 2 ^ k → j < 2 ^ k →
          ∃ row, m[i]? = some row ∧
            row[j]? = some (if setBits (i &&& j) % 2 = 0 then 1 else -1)) ∧
    (44 ≤ k → k ≤ 62 → walshMatrix ((2 : Int) ^ k) = .error .makesliceLenOutOfRange) := by
  refine ⟨fun hk => ?_, walshMatrix_two_pow_large k⟩
  have hle : 2 ^ k ≤ 2 ^ 43 := Nat.pow_le_pow_right (by decide) hk
  have hentry : ∀ i j, i < 2 ^ k → j < 2 ^ k →
      walshEntry i j = if setBits (i &&& j) % 2 = 0 then 1 else -1 := by
    intro i j hi hj
    have hand : i &&& j ≤ i := Nat.and_le_left
    rw [walshEntry_eq i j (by omega) (by omega), onesCount_eq_setBits _ (by omega)]
  refine ⟨_, walshMatrix_two_pow k hk, by simp, ?_, ?_⟩
  · intro row hrow
    obtain ⟨i, hi, rfl⟩ := List.mem_map.1 hrow
    refine ⟨by simp, ?_⟩
    intro x hx
    obtain ⟨j, hj, rfl⟩ := List.mem_map.1 hx
    rw [hentry i j (List.mem_range.1 hi) (List.mem_range.1 hj)]
    by_cases h : setBits (i &&& j) % 2 = 0
    · left; rw [if_pos h]
    · right; rw [if_neg h]
  · intro i j hi hj
    refine ⟨(List.range (2 ^ k)).map (fun j => walshEntry i j), ?_, ?_⟩
    · rw [List.getElem?_map, List.getElem?_range hi]; rfl
    · rw [List.getElem?_map, List.getElem?_range hj, Option.map_some', hentry i j hi hj]

theorem walshMatrix_closed_form_witness :
    (2 ≤ 43 ∧
      ∃ m, walshMatrix ((2 : Int) ^ 2) = .ok m ∧ m.length = 2 ^ 2 ∧
        (∀ row ∈ m, row.length = 2 ^ 2 ∧ ∀ x ∈ row, x = 1 ∨ x = -1) ∧
        ∀ i j, i < 2 ^ 2 → j < 2 ^ 2 →
          ∃ row, m[i]? = some row ∧
            row[j]? = some (if setBits (i &&& j) % 2 = 0 then 1 else -1)) ∧
    ((44 ≤ 50 ∧ 50 ≤ 62) ∧ walshMatrix ((2 : Int) ^ 50) = .error .makesliceLenOutOfRange) :=
  ⟨⟨by decide, (walshMatrix_closed_form 2).1 (by decide)⟩,
    ⟨by decide, (walshMatrix_closed_form 50).2 (by decide) (by decide)⟩⟩

/-- C2: every matrix m that walshMatrix(n) returns for a power of two n = 2^k has n rows,
and for all row indices a, b the dot product of row a with row b (the sum over j of
m[a][j] * m[b][j]) is n when a = b and 0 when a differs from b. walshMatrix(2^k) does
return a matrix for every k <= 43, the powers of two whose slice of rows make accepts. -/
theorem walshMatrix_orthogonal (k : Nat) :
    (k ≤ 43 → ∃ m, walshMatrix ((2 : Int) ^ k) = .ok m) ∧
    ∀ m, walshMatrix ((2 : Int) ^ k) = .ok m →
      m.length = 2 ^ k ∧
      ∀ (a b : Nat) (ra rb : List Int), m[a]? = some ra → m[b]? = some rb →
        dot ra rb = if a = b then 2 ^ k else 0 := by
  refine ⟨fun hk => ⟨_, walshMatrix_two_pow k hk⟩, ?_⟩
  intro m hm
  obtain ⟨hk, rfl⟩ := walshMatrix_ok_two_pow k m hm
  have hle : 2 ^ k ≤ 2 ^ 43 := Nat.pow_le_pow_right (by decide) hk
  refine ⟨by simp, ?_⟩
  intro a b ra rb ha hb
  rw [List.getElem?_map] at ha hb
  have ha1 : a < 2 ^ k := by
    by_contra h
    rw [List.getElem?_eq_none (by simp; omega)] at ha
    simp at ha
  have hb1 : b < 2 ^ k := by
    by_contra h
    rw [List.getElem?_eq_none (by simp; omega)] at hb
    simp at hb
  rw [List.getElem?_range ha1, Option.map_some', Option.some.injEq] at ha
  rw [List.getElem?_range hb1, Option.map_some', Option.some.injEq] at hb
  rw [← ha, ← hb, dot_map_map, sum_map_range, ← orth_sum_eq k (by omega) a b ha1 hb1]
  apply Finset.sum_congr rfl
  intro j hj
  have hj1 : j < 2 ^ k := Finset.mem_range.1 hj
  rw [walshEntry_eq a j (by omega) (by omega), walshEntry_eq b j (by omega) (by omega)]

theorem walshMatrix_orthogonal_witness :
    (2 ≤ 43 ∧ ∃ m, walshMatrix ((2 : Int) ^ 2) = .ok m) ∧
    (walshMatrix ((2 : Int) ^ 2) =
        .ok [[1, 1, 1, 1], [1, -1, 1, -1], [1, 1, -1, -1], [1, -1, -1, 1]] ∧
      ([[1, 1, 1, 1], [1, -1, 1, -1], [1, 1, -1, -1], [1, -1, -1, 1]] :
          List (List Int)).length = 2 ^ 2 ∧
      ∀ (a b : Nat) (ra rb : List Int),
        ([[1, 1, 1, 1], [1, -1, 1, -1], [1, 1, -1, -1], [1, -1, -1, 1]] :
          List (List Int))[a]? = some ra →
        ([[1, 1, 1, 1], [1, -1, 1, -1], [1, 1, -1, -1], [1, -1, -1, 1]] :
          List (List Int))[b]? = some rb →
        dot ra rb = if a = b then 2 ^ 2 else 0) :=
  ⟨⟨by decide, (walshMatrix_orthogonal 2).1 (by decide)⟩,
    ⟨by decide, (walshMatrix_orthogonal 2).2 _ (by decide)⟩⟩

set_option maxRecDepth 1000000 in
/-- C6: in the run of main (walshMatrix(8), stations 0..3 on rows 0..3, all added to a
fresh Channel) the stations carry the messages GOD, CAT, HAM, SUN of 24 bits and 192
chips each, the signal has 192 chips, and Decode with each station's code returns
exactly the bytes of that station's own three-character message. -/
theorem main_scenario :
    mainRun = .ok
      { signalLength := 192,
        words := ["GOD", "CAT", "HAM", "SUN"],
        dataBitCounts := [24, 24, 24, 24],
        chipCounts := [192, 192, 192, 192],
        lines := [{ name := "A", decoded := stringBytes "GOD", same := true },
                  { name := "B", decoded := stringBytes "CAT", same := true },
                  { name := "C", decoded := stringBytes "HAM", same := true },
                  { name := "D", decoded := stringBytes "SUN", same := true }] } := by
  decide!

/-! ## Rejected sizes -/

theorem and_pred_eq_zero (p : Nat) : 0 < p → p &&& (p - 1) = 0 → ∃ k, p = 2 ^ k := by
  induction p using Nat.strong_induction_on with
  | _ p ih =>
    intro hp h
    have hhalf : (p / 2) &&& ((p - 1) / 2) = 0 := by
      apply Nat.eq_of_testBit_eq
      intro t
      rw [Nat.testBit_land, ← Nat.testBit_succ, ← Nat.testBit_succ, ← Nat.testBit_land, h]
      simp
    rcases Nat.mod_two_eq_zero_or_one p with h0 | h1
    · have hq : 0 < p / 2 := by omega
      have hpred : (p - 1) / 2 = p / 2 - 1 := by omega
      rw [hpred] at hhalf
      obtain ⟨k, hk⟩ := ih (p / 2) (by omega) hq hhalf
      refine ⟨k + 1, ?_⟩
      rw [Nat.pow_succ, ← hk]
      omega
    · have hpred : (p - 1) / 2 = p / 2 := by omega
      rw [hpred, Nat.and_self] at hhalf
      exact ⟨0, by rw [Nat.pow_zero]; omega⟩

theorem testBit_top (p : Nat) (h1 : 2 ^ 63 ≤ p) (h2 : p < 2 ^ 64) : p.testBit 63 = true := by
  have hp : p = 2 ^ 63 + (p - 2 ^ 63) := by omega
  rw [hp, Nat.testBit_two_pow_add_eq, Nat.testBit_lt_two_pow (by omega)]
  rfl

/-- Every int other than the least one that is zero, negative or not a power of two is
rejected by the guard of walshMatrix with the invalid-size panic. -/
theorem walshMatrix_rejects (n : Int) (h1 : -2 ^ 63 < n) (h2 : n < 2 ^ 63)
    (h : n ≤ 0 ∨ ¬ ∃ k : Nat, n = 2 ^ k) : walshMatrix n = .error .invalidSize := by
  have hcheck : (n == 0 || andInt n (subInt n 1) != 0) = true := by
    by_cases hn0 : n = 0
    · simp [hn0]
    have hsub : subInt n 1 = n - 1 := by
      unfold subInt
      exact wrapInt_of_range (by omega) (by omega)
    suffices hne : andInt n (subInt n 1) ≠ 0 by simp [hne]
    rw [hsub]
    unfold andInt
    by_cases hpos : 0 < n
    · have hnot : ¬ ∃ k : Nat, n = 2 ^ k := by
        rcases h with h | h
        · omega
        · exact h
      obtain ⟨p, rfl⟩ := Int.eq_ofNat_of_zero_le (le_of_lt hpos)
      have hp : 0 < p := by exact_mod_cast hpos
      have hp63 : p < 2 ^ 63 := by exact_mod_cast h2
      have hpm : ((p : Int) - 1) = ((p - 1 : Nat) : Int) := by omega
      rw [hpm, toUint_natCast p (by omega), toUint_natCast (p - 1) (by omega)]
      have hand : p &&& (p - 1) ≠ 0 := by
        intro h0
        obtain ⟨k, hk⟩ := and_pred_eq_zero p hp h0
        exact hnot ⟨k, by rw [hk]; push_cast; rfl⟩
      have hle : p &&& (p - 1) ≤ p := Nat.and_le_left
      rw [wrapInt_of_range (by omega) (by omega)]
      exact_mod_cast hand
    · have hneg : n < 0 := by omega
      have hu1 : toUint n = (n + 2 ^ 64).toNat := by
        unfold toUint
        congr 1
        omega
      have hu2 : toUint (n - 1) = (n + 2 ^ 64).toNat - 1 := by
        unfold toUint
        omega
      rw [hu1, hu2]
      generalize hq : (n + 2 ^ 64).toNat = q
      have hq1 : 2 ^ 63 < q := by omega
      have hq2 : q < 2 ^ 64 := by omega
      have hbit : (q &&& (q - 1)).testBit 63 = true := by
        rw [Nat.testBit_land, testBit_top q (by omega) hq2, testBit_top (q - 1) (by omega) (by omega)]
        rfl
      have hge : 2 ^ 63 ≤ q &&& (q - 1) := Nat.testBit_implies_ge hbit
      have hle : q &&& (q - 1) ≤ q := Nat.and_le_left
      unfold wrapInt
      omega
  unfold walshMatrix
  rw [if_pos hcheck]

/-- C4 (the failing input): at the least int, -2^63, the guard of walshMatrix lets n
through, because n & (n - 1) is 0 there, and the function fails inside make with the
runtime panic for a negative length instead of the invalid-size panic. -/
theorem walshMatrix_least_int :
    (((-9223372036854775808 : Int) == 0 ||
        andInt (-9223372036854775808) (subInt (-9223372036854775808) 1) != 0) = false) ∧
      walshMatrix (-9223372036854775808) = .error .makesliceLenOutOfRange ∧
      walshMatrix (-9223372036854775808) ≠ .error .invalidSize := by
  decide

/-! ## AddStation on an established signal -/

theorem addLoop_length : ∀ (signal bits : List Int), (addLoop signal bits).1.length = signal.length := by
  intro signal
  induction signal with
  | nil => intro bits; rfl
  | cons v signal ih =>
    intro bits
    cases bits with
    | nil => rfl
    | cons b bits =>
      have h := ih bits
      rcases hr : addLoop signal bits with ⟨rest, outcome⟩
      rw [hr] at h
      simp only [addLoop, hr, List.length_cons]
      exact congrArg Nat.succ h

theorem addLoop_outcome :
    ∀ (signal bits : List Int),
      (addLoop signal bits).2 = if bits.length < signal.length then some .indexOutOfRange else none := by
  intro signal
  induction signal with
  | nil => intro bits; simp [addLoop]
  | cons v signal ih =>
    intro bits
    cases bits with
    | nil => simp [addLoop]
    | cons b bits =>
      have h := ih bits
      rcases hr : addLoop signal bits with ⟨rest, outcome⟩
      rw [hr] at h
      simp only [addLoop, hr, List.length_cons, Nat.succ_lt_succ_iff]
      exact h

theorem addLoop_getElem? :
    ∀ (signal bits : List Int) (i : Nat) (v : Int), signal[i]? = some v →
      (addLoop signal bits).1[i]? =
        some (match bits[i]? with
          | some b => addInt v b
          | none => v) := by
  intro signal
  induction signal with
  | nil => intro bits i v h; simp at h
  | cons x signal ih =>
    intro bits i v h
    cases bits with
    | nil => simpa [addLoop] using h
    | cons b bits =>
      rcases hr : addLoop signal bits with ⟨rest, outcome⟩
      simp only [addLoop, hr]
      cases i with
      | zero =>
        simp only [List.getElem?_cons_zero, Option.some.injEq] at h
        simp [h]
      | succ i =>
        rw [List.getElem?_cons_succ] at h
        have h2 := ih bits i v h
        rw [hr] at h2
        simpa using h2

theorem AddStation_established (ch : Channel) (s : Station) (h : 0 < ch.signal.length) :
    AddStation ch s =
      ({ signal := (addLoop ch.signal s.bits).1 }, (addLoop ch.signal s.bits).2) := by
  unfold AddStation
  have hb : (ch.signal.length == 0) = false := by simpa using Nat.pos_iff_ne_zero.1 h
  simp only [hb, Bool.false_eq_true, if_false]

/-- C12 (as stated, refuted): after a station with the one chip 1, a station with the
two chips 1, 2 is added without any error; the call completes and the signal is [2]. -/
theorem AddStation_longer_counterexample :
    AddStation
        (AddStation NewChannel { id := 0, name := "", word := "", code := [], bits := [1] }).1
        { id := 1, name := "", word := "", code := [], bits := [1, 2] } =
      ({ signal := [2] }, none) := by
  decide

/-- C12 (amended): for every Channel whose signal is not empty, AddStation of a chip
stream shorter than the signal fails with the index-out-of-range panic of the runtime
(there is no length-mismatch error), and AddStation of a chip stream longer than the
signal completes without any error. -/
theorem AddStation_length_mismatch (ch : Channel) (s : Station) (h : 0 < ch.signal.length) :
    (s.bits.length < ch.signal.length → (AddStation ch s).2 = some .indexOutOfRange) ∧
    (ch.signal.length < s.bits.length → (AddStation ch s).2 = none) := by
  rw [AddStation_established ch s h]
  simp only [addLoop_outcome]
  constructor
  · intro hlt
    rw [if_pos hlt]
  · intro hgt
    rw [if_neg (by omega)]

theorem AddStation_length_mismatch_witness :
    0 < ({ signal := [1, 1] } : Channel).signal.length ∧
    ((({ id := 0, name := "", word := "", code := [], bits := [5] } : Station).bits.length <
        ({ signal := [1, 1] } : Channel).signal.length →
      (AddStation { signal := [1, 1] }
        { id := 0, name := "", word := "", code := [], bits := [5] }).2 = some .indexOutOfRange) ∧
    (({ signal := [1, 1] } : Channel).signal.length <
        ({ id := 0, name := "", word := "", code := [], bits := [5] } : Station).bits.length →
      (AddStation { signal := [1, 1] }
        { id := 0, name := "", word := "", code := [], bits := [5] }).2 = none)) :=
  ⟨by decide, AddStation_length_mismatch { signal := [1, 1] }
    { id := 0, name := "", word := "", code := [], bits := [5] } (by decide)⟩

/-- C13 (as stated, refuted): on the signal [1, 1] the shorter chip stream [5] leaves
the signal [6, 1]: position 0 has been superposed before the call panics. -/
theorem AddStation_partial_counterexample :
    (AddStation
        (AddStation NewChannel { id := 0, name := "", word := "", code := [], bits := [1, 1] }).1
        { id := 1, name := "", word := "", code := [], bits := [5] }) =
      ({ signal := [6, 1] }, some .indexOutOfRange) ∧
    (AddStation
        (AddStation NewChannel { id := 0, name := "", word := "", code := [], bits := [1, 1] }).1
        { id := 1, name := "", word := "", code := [], bits := [5] }).1 ≠
      (AddStation NewChannel { id := 0, name := "", word := "", code := [], bits := [1, 1] }).1 := by
  decide

/-- C13 (amended): for every Channel whose signal is not empty and every chip stream
whose length differs from the signal's, the signal after the AddStation call has the
same length as before, every position for which the station has a chip is increased by
that chip, and every position for which it has none keeps its value. -/
theorem AddStation_mismatch_effect (ch : Channel) (s : Station) (h : 0 < ch.signal.length)
    (_hne : s.bits.length ≠ ch.signal.length) :
    (AddStation ch s).1.signal.length = ch.signal.length ∧
    ∀ (i : Nat) (v : Int), ch.signal[i]? = some v →
      (AddStation ch s).1.signal[i]? =
        some (match s.bits[i]? with
          | some b => addInt v b
          | none => v) := by
  rw [AddStation_established ch s h]
  exact ⟨addLoop_length _ _, fun i v hv => addLoop_getElem? _ _ i v hv⟩

theorem AddStation_mismatch_effect_witness :
    (0 < ({ signal := [1, 1] } : Channel).signal.length ∧
      ({ id := 0, name := "", word := "", code := [], bits := [5] } : Station).bits.length ≠
        ({ signal := [1, 1] } : Channel).signal.length) ∧
    ((AddStation { signal := [1, 1] }
        { id := 0, name := "", word := "", code := [], bits := [5] }).1.signal.length =
        ({ signal := [1, 1] } : Channel).signal.length ∧
      ∀ (i : Nat) (v : Int), ({ signal := [1, 1] } : Channel).signal[i]? = some v →
        (AddStation { signal := [1, 1] }
          { id := 0, name := "", word := "", code := [], bits := [5] }).1.signal[i]? =
          some (match ({ id := 0, name := "", word := "", code := [], bits := [5] } :
              Station).bits[i]? with
            | some b => addInt v b
            | none => v)) :=
  ⟨by decide, AddStation_mismatch_effect { signal := [1, 1] }
    { id := 0, name := "", word := "", code := [], bits := [5] } (by decide) (by decide)⟩

/-! ## The length of the signal -/

theorem AddStation_keeps_length (ch : Channel) (s : Station) (h : 0 < ch.signal.length) :
    (AddStation ch s).1.signal.length = ch.signal.length := by
  rw [AddStation_established ch s h]
  exact addLoop_length _ _

theorem addEach_length :
    ∀ (later : List Station) (ch : Channel), 0 < ch.signal.length →
      ∀ c ∈ addEach later ch, c.signal.length = ch.signal.length := by
  intro later
  induction later with
  | nil => intro ch _ c hc; simp [addEach] at hc
  | cons s rest ih =>
    intro ch h c hc
    have hk := AddStation_keeps_length ch s h
    simp only [addEach, List.mem_cons] at hc
    rcases hc with rfl | hc
    · exact hk
    · rw [← hk]
      exact ih _ (by omega) c hc

/-- C16 (as stated, refuted): when the station added first has no chips, the signal has
length 0 after the first call and length 1 after a later call with one chip. -/
theorem signal_length_counterexample :
    (AddStation NewChannel
      { id := 0, name := "", word := "", code := [], bits := [] }).1.signal.length = 0 ∧
    (addEach [{ id := 1, name := "", word := "", code := [], bits := [1] }]
      (AddStation NewChannel
        { id := 0, name := "", word := "", code := [], bits := [] }).1).map
      (fun c => c.signal.length) = [1] := by
  decide

/-- C16 (amended): for every station added first to a fresh Channel whose chip stream is
not empty and every sequence of later AddStation calls, with chip streams of any length
and whether or not a call panics, the length of the signal after the first call and
after each later call equals the length of the first station's chip stream. -/
theorem signal_length_fixed (first : Station) (later : List Station)
    (h : 0 < first.bits.length) :
    (AddStation NewChannel first).1.signal.length = first.bits.length ∧
    (addEach later (AddStation NewChannel first).1).length = later.length ∧
    ∀ c ∈ addEach later (AddStation NewChannel first).1,
      c.signal.length = first.bits.length := by
  have h1 : (AddStation NewChannel first).1.signal.length = first.bits.length := by
    rw [AddStation_fresh]
  refine ⟨h1, ?_, ?_⟩
  · generalize (AddStation NewChannel first).1 = ch
    induction later generalizing ch with
    | nil => rfl
    | cons s rest ih => simp only [addEach, List.length_cons, ih]
  · intro c hc
    rw [← h1]
    exact addEach_length later _ (by omega) c hc

theorem signal_length_fixed_witness :
    0 < ({ id := 0, name := "", word := "", code := [], bits := [1, -1] } : Station).bits.length ∧
    ((AddStation NewChannel
        { id := 0, name := "", word := "", code := [], bits := [1, -1] }).1.signal.length =
        ({ id := 0, name := "", word := "", code := [], bits := [1, -1] } : Station).bits.length ∧
      (addEach [{ id := 1, name := "", word := "", code := [], bits := [7] },
          { id := 2, name := "", word := "", code := [], bits := [1, 2, 3] }]
        (AddStation NewChannel
          { id := 0, name := "", word := "", code := [], bits := [1, -1] }).1).length =
        [({ id := 1, name := "", word := "", code := [], bits := [7] } : Station),
          { id := 2, name := "", word := "", code := [], bits := [1, 2, 3] }].length ∧
      ∀ c ∈ addEach [{ id := 1, name := "", word := "", code := [], bits := [7] },
          { id := 2, name := "", word := "", code := [], bits := [1, 2, 3] }]
        (AddStation NewChannel
          { id := 0, name := "", word := "", code := [], bits := [1, -1] }).1,
        c.signal.length =
          ({ id := 0, name := "", word := "", code := [], bits := [1, -1] } : Station).bits.length) :=
  ⟨by decide, signal_length_fixed { id := 0, name := "", word := "", code := [], bits := [1, -1] }
    [{ id := 1, name := "", word := "", code := [], bits := [7] },
      { id := 2, name := "", word := "", code := [], bits := [1, 2, 3] }] (by decide)⟩

/-! ## The signal as the sum of the chip streams -/

theorem chipSum_cons (s : Station) (rest : List Station) (i : Nat) :
    chipSum (s :: rest) i = s.bits.getD i 0 + chipSum rest i := by
  simp [chipSum]

theorem chipSum_perm {permuted stations : List Station} (h : permuted.Perm stations) (i : Nat) :
    chipSum permuted i = chipSum stations i := by
  unfold chipSum
  exact (h.map _).sum_eq

theorem zipWith_addInt_range (len : Nat) (g : Nat → Int) (bits : List Int)
    (h : bits.length = len) :
    List.zipWith addInt ((List.range len).map g) bits =
      (List.range len).map (fun i => addInt (g i) (bits.getD i 0)) := by
  apply List.ext_getElem?
  intro i
  by_cases hi : i < len
  · have hi1 : i < bits.length := by omega
    rw [List.getElem?_zipWith, List.getElem?_map, List.getElem?_map, List.getElem?_range hi,
      List.getElem?_eq_getElem hi1]
    simp only [Option.map_some', List.getD_eq_getElem _ _ hi1]
  · rw [List.getElem?_eq_none (by simp; omega), List.getElem?_eq_none (by simp; omega)]

theorem addStations_sum (len : Nat) :
    ∀ (rest : List Station) (f : Nat → Int), (∀ s ∈ rest, s.bits.length = len) →
      addStations rest { signal := (List.range len).map (fun i => wrapInt (f i)) } =
        ({ signal := (List.range len).map (fun i => wrapInt (f i + chipSum rest i)) }, none) := by
  intro rest
  induction rest with
  | nil => intro f _; simp [addStations, chipSum]
  | cons s rest ih =>
    intro f h
    have hs : s.bits.length = len := h s (List.mem_cons_self _ _)
    rw [addStations, AddStation_same_length _ _ (by simp [hs])]
    simp only []
    rw [zipWith_addInt_range len _ s.bits hs]
    have hstep : (fun i => addInt (wrapInt (f i)) (s.bits.getD i 0)) =
        (fun i => wrapInt (f i + s.bits.getD i 0)) := by
      funext i
      unfold addInt wrapInt
      omega
    rw [hstep, ih (fun i => f i + s.bits.getD i 0) (fun t ht => h t (List.mem_cons_of_mem _ ht))]
    simp only [chipSum_cons, add_assoc]

theorem addStations_fresh_sum (len : Nat) (stations : List Station) (hne : stations ≠ [])
    (h : ∀ s ∈ stations, s.bits.length = len ∧ ∀ c ∈ s.bits, -2 ^ 63 ≤ c ∧ c < 2 ^ 63) :
    addStations stations NewChannel =
      ({ signal := (List.range len).map (fun i => wrapInt (chipSum stations i)) }, none) := by
  cases stations with
  | nil => exact absurd rfl hne
  | cons s rest =>
    obtain ⟨hs, hrange⟩ := h s (List.mem_cons_self _ _)
    have hbits : s.bits = (List.range len).map (fun i => wrapInt (s.bits.getD i 0)) := by
      apply List.ext_getElem?
      intro i
      by_cases hi : i < len
      · have hi1 : i < s.bits.length := by omega
        rw [List.getElem?_map, List.getElem?_range hi, List.getElem?_eq_getElem hi1,
          Option.map_some', List.getD_eq_getElem _ _ hi1]
        have hr := hrange _ (List.getElem_mem hi1)
        rw [wrapInt_of_range hr.1 hr.2]
      · rw [List.getElem?_eq_none (by omega), List.getElem?_eq_none (by simp; omega)]
    rw [addStations, AddStation_fresh]
    simp only []
    rw [hbits, addStations_sum len rest _ (fun t ht => (h t (List.mem_cons_of_mem _ ht)).1)]
    simp only [chipSum_cons, ← hbits]

/-- C11: on a fresh Channel the first AddStation sets the signal equal to the station's
chip stream; an AddStation of a chip stream as long as the signal completes, keeps the
length and increases every position by the chip at that position (int addition); hence
for every non-empty list of stations whose chip streams have one common length, adding
them all completes, the signal has that length and signal[i] is the sum over the
stations of their chip i, as an int, which is the exact sum whenever that fits an int. -/
theorem superposition_rule :
    (∀ s : Station, AddStation NewChannel s = ({ signal := s.bits }, none)) ∧
    (∀ (ch : Channel) (s : Station), ch.signal.length = s.bits.length →
      (AddStation ch s).2 = none ∧
      (AddStation ch s).1.signal.length = ch.signal.length ∧
      ∀ (i : Nat) (v b : Int), ch.signal[i]? = some v → s.bits[i]? = some b →
        (AddStation ch s).1.signal[i]? = some (addInt v b)) ∧
    (∀ (stations : List Station) (len : Nat), stations ≠ [] →
      (∀ s ∈ stations, s.bits.length = len ∧ ∀ c ∈ s.bits, -2 ^ 63 ≤ c ∧ c < 2 ^ 63) →
      ∃ ch, addStations stations NewChannel = (ch, none) ∧ ch.signal.length = len ∧
        ∀ i, i < len →
          ch.signal[i]? = some (wrapInt (chipSum stations i)) ∧
          (-2 ^ 63 ≤ chipSum stations i → chipSum stations i < 2 ^ 63 →
            ch.signal[i]? = some (chipSum stations i))) := by
  refine ⟨AddStation_fresh, ?_, ?_⟩
  · intro ch s h
    rw [AddStation_same_length ch s h]
    refine ⟨rfl, by simp [h], ?_⟩
    intro i v b hv hb
    simp only [List.getElem?_zipWith, hv, hb]
  · intro stations len hne h
    refine ⟨_, addStations_fresh_sum len stations hne h, by simp, ?_⟩
    intro i hi
    have hget : ((List.range len).map (fun i => wrapInt (chipSum stations i)))[i]? =
        some (wrapInt (chipSum stations i)) := by
      rw [List.getElem?_map, List.getElem?_range hi]
      rfl
    refine ⟨hget, ?_⟩
    intro h1 h2
    rw [hget, wrapInt_of_range h1 h2]

/-- C14: for every list of stations whose chip streams have one common length and every
permutation of that list, adding the stations to a fresh Channel in the permuted order
completes and leaves the same signal as adding them in the original order: the signal
whose position i holds the sum over all the stations of their chip i, as an int. -/
theorem add_order_independent (stations permuted : List Station) (len : Nat)
    (hperm : permuted.Perm stations)
    (h : ∀ s ∈ stations, s.bits.length = len ∧ ∀ c ∈ s.bits, -2 ^ 63 ≤ c ∧ c < 2 ^ 63) :
    addStations permuted NewChannel = addStations stations NewChannel ∧
    (addStations stations NewChannel).2 = none ∧
    (stations ≠ [] → (addStations stations NewChannel).1.signal.length = len) ∧
    ∀ i, i < (addStations stations NewChannel).1.signal.length →
      (addStations stations NewChannel).1.signal[i]? = some (wrapInt (chipSum stations i)) ∧
      (-2 ^ 63 ≤ chipSum stations i → chipSum stations i < 2 ^ 63 →
        (addStations stations NewChannel).1.signal[i]? = some (chipSum stations i)) := by
  by_cases hne : stations = []
  · subst hne
    have hp : permuted = [] := List.Perm.eq_nil hperm
    subst hp
    refine ⟨rfl, rfl, fun h0 => absurd rfl h0, ?_⟩
    intro i hi
    simp [addStations, NewChannel] at hi
  · have hne2 : permuted ≠ [] := by
      intro h0
      rw [h0] at hperm
      exact hne (List.Perm.eq_nil hperm.symm)
    have h2 : ∀ s ∈ permuted, s.bits.length = len ∧ ∀ c ∈ s.bits, -2 ^ 63 ≤ c ∧ c < 2 ^ 63 :=
      fun s hs => h s (hperm.mem_iff.1 hs)
    rw [addStations_fresh_sum len permuted hne2 h2, addStations_fresh_sum len stations hne h]
    refine ⟨?_, rfl, fun _ => by simp, ?_⟩
    · simp only [chipSum_perm hperm]
    · intro i hi
      simp only [List.length_map, List.length_range] at hi
      have hget : ((List.range len).map (fun i => wrapInt (chipSum stations i)))[i]? =
          some (wrapInt (chipSum stations i)) := by
        rw [List.getElem?_map, List.getElem?_range hi]
        rfl
      refine ⟨hget, ?_⟩
      intro h1 h2
      simp only []
      rw [hget, wrapInt_of_range h1 h2]

theorem add_order_independent_witness :
    ((([{ id := 1, name := "", word := "", code := [], bits := [3, -4] },
        { id := 0, name := "", word := "", code := [], bits := [1, 2] }] : List Station).Perm
        [{ id := 0, name := "", word := "", code := [], bits := [1, 2] },
        { id := 1, name := "", word := "", code := [], bits := [3, -4] }]) ∧
      ∀ s ∈ ([{ id := 0, name := "", word := "", code := [], bits := [1, 2] },
        { id := 1, name := "", word := "", code := [], bits := [3, -4] }] : List Station),
        s.bits.length = 2 ∧ ∀ c ∈ s.bits, -2 ^ 63 ≤ c ∧ c < 2 ^ 63) ∧
    (addStations [{ id := 1, name := "", word := "", code := [], bits := [3, -4] },
        { id := 0, name := "", word := "", code := [], bits := [1, 2] }] NewChannel =
        addStations [{ id := 0, name := "", word := "", code := [], bits := [1, 2] },
        { id := 1, name := "", word := "", code := [], bits := [3, -4] }] NewChannel ∧
      (addStations [{ id := 0, name := "", word := "", code := [], bits := [1, 2] },
        { id := 1, name := "", word := "", code := [], bits := [3, -4] }] NewChannel).2 = none ∧
      (([{ id := 0, name := "", word := "", code := [], bits := [1, 2] },
        { id := 1, name := "", word := "", code := [], bits := [3, -4] }] : List Station) ≠ [] →
        (addStations [{ id := 0, name := "", word := "", code := [], bits := [1, 2] },
        { id := 1, name := "", word := "", code := [], bits := [3, -4] }] NewChannel).1.signal.length = 2) ∧
      ∀ i, i < (addStations [{ id := 0, name := "", word := "", code := [], bits := [1, 2] },
        { id := 1, name := "", word := "", code := [], bits := [3, -4] }] NewChannel).1.signal.length →
        (addStations [{ id := 0, name := "", word := "", code := [], bits := [1, 2] },
        { id := 1, name := "", word := "", code := [], bits := [3, -4] }] NewChannel).1.signal[i]? =
            some (wrapInt (chipSum [{ id := 0, name := "", word := "", code := [], bits := [1, 2] },
        { id := 1, name := "", word := "", code := [], bits := [3, -4] }] i)) ∧
          (-2 ^ 63 ≤ chipSum [{ id := 0, name := "", word := "", code := [], bits := [1, 2] },
        { id := 1, name := "", word := "", code := [], bits := [3, -4] }] i →
            chipSum [{ id := 0, name := "", word := "", code := [], bits := [1, 2] },
        { id := 1, name := "", word := "", code := [], bits := [3, -4] }] i < 2 ^ 63 →
            (addStations [{ id := 0, name := "", word := "", code := [], bits := [1, 2] },
        { id := 1, name := "", word := "", code := [], bits := [3, -4] }] NewChannel).1.signal[i]? =
              some (chipSum [{ id := 0, name := "", word := "", code := [], bits := [1, 2] },
        { id := 1, name := "", word := "", code := [], bits := [3, -4] }] i))) :=
  ⟨⟨List.Perm.swap _ _ _, by decide⟩,
    add_order_independent
      [{ id := 0, name := "", word := "", code := [], bits := [1, 2] },
        { id := 1, name := "", word := "", code := [], bits := [3, -4] }]
      [{ id := 1, name := "", word := "", code := [], bits := [3, -4] },
        { id := 0, name := "", word := "", code := [], bits := [1, 2] }]
      2 (List.Perm.swap _ _ _) (by decide)⟩

/-! ## When Decode fails -/

theorem recoverBits_empty_code (signal : List Int) : recoverBits signal [] = .error .divideByZero := by
  simp [recoverBits]

theorem window_index_bound (len count i j : Nat) (hi : i < len / count) (hj : j < count) :
    i * count + j < len := by
  have h1 : (i + 1) * count ≤ len / count * count := Nat.mul_le_mul_right _ hi
  have h2 := Nat.div_mul_le_self len count
  rw [Nat.succ_mul] at h1
  omega

/-- C20: for every Channel state, Decode with a code of length 0 fails with the division
by zero, and with a code of length at least 1 it returns normally, whatever the signal
(the empty signal and signals shorter than the code included): every read of the signal
and of the code in the correlation is in bounds, and so is every read of the recovered
bits in the packing. -/
theorem Decode_fails_on_empty_code_only (ch : Channel) (code : List Int) :
    (code.length = 0 → Decode ch code = .error .divideByZero) ∧
    (0 < code.length →
      ∃ bits, recoverBits ch.signal code = .ok bits ∧ Decode ch code = .ok (packText bits) ∧
        (∀ i j, i < ch.signal.length / code.length → j < code.length →
          ∃ a c, readAt ch.signal (i * code.length + j) = .ok a ∧ readAt code j = .ok c) ∧
        (∀ i j, i + 7 < bits.length → j < 8 → ∃ v, readAt bits (i + j) = .ok v)) := by
  constructor
  · intro h
    have hc : code = [] := List.length_eq_zero.1 h
    rw [Decode_eq, hc, recoverBits_empty_code]
  · intro h
    refine ⟨_, recoverBits_eq ch.signal code h, ?_, ?_, ?_⟩
    · rw [Decode_eq]
      simp only [recoverBits_eq ch.signal code h]
    · intro i j hi hj
      have hb := window_index_bound ch.signal.length code.length i j hi hj
      refine ⟨ch.signal[i * code.length + j], code[j], ?_, ?_⟩
      · simp [readAt, List.getElem?_eq_getElem hb]
      · simp [readAt, List.getElem?_eq_getElem hj]
    · intro i j hi hj
      generalize (List.range (ch.signal.length / code.length)).map
        (fun i => if wrapInt (dot (window ch.signal code.length i) code) > 0 then (1 : Int) else 0)
        = bits at hi ⊢
      have hb : i + j < bits.length := by omega
      exact ⟨bits[i + j], by simp [readAt, List.getElem?_eq_getElem hb]⟩

/-! ## Decode on the memory it can reach -/

theorem copySlice_fresh (src : List Int) : copySlice (List.replicate src.length 0) src = src := by
  unfold copySlice
  rw [List.length_replicate, List.take_length, List.drop_of_length_le (by simp), List.append_nil]

theorem decodeBits_loop (signal code chSignal : List Int) (bytes : List Nat) :
    ∀ (items : List Nat), (∀ i ∈ items, i < signal.length / code.length) →
      ∀ recovered : List Int,
        loopKeep
          (fun i (m1 : DecodeMemory) =>
            match correlate m1.signal m1.stationCode (i * code.length) with
            | .error e => (m1, some e)
            | .ok sum =>
              ({ m1 with recoveredBits := m1.recoveredBits ++ [if sum > 0 then (1 : Int) else 0] },
                none))
          items
          { chSignal := chSignal, stationCode := code, signal := signal,
            recoveredBits := recovered, bytes := bytes } =
        ({ chSignal := chSignal, stationCode := code, signal := signal,
           recoveredBits := recovered ++ (items.map
             (fun i => if wrapInt (dot (window signal code.length i) code) > 0 then (1 : Int) else 0)),
           bytes := bytes },
          none) := by
  intro items
  induction items with
  | nil => intro _ recovered; simp [loopKeep]
  | cons i items ih =>
    intro hitems recovered
    have hi : i < signal.length / code.length := hitems i (List.mem_cons_self _ _)
    have hb : i * code.length + code.length ≤ signal.length := by
      have h1 : (i + 1) * code.length ≤ signal.length / code.length * code.length :=
        Nat.mul_le_mul_right _ hi
      have h2 := Nat.div_mul_le_self signal.length code.length
      rw [Nat.succ_mul] at h1
      omega
    rw [loopKeep]
    simp only [correlate_eq signal code (i * code.length) hb]
    rw [ih (fun t ht => hitems t (List.mem_cons_of_mem _ ht))]
    simp [window]

theorem decodePackRun_eq :
    ∀ (n : Nat) (m : DecodeMemory) (i : Nat), m.recoveredBits.length - i = n →
      decodePackRun m i =
        ({ m with bytes := m.bytes ++ packText (m.recoveredBits.drop i) }, none) := by
  intro n
  induction n using Nat.strong_induction_on with
  | _ n ih =>
    intro m i hn
    rw [decodePackRun]
    by_cases hi : i + 7 < m.recoveredBits.length
    · rw [if_pos hi]
      have hlen : (m.recoveredBits.drop i).length = m.recoveredBits.length - i :=
        List.length_drop _ _
      rcases hd : m.recoveredBits.drop i with
        _ | ⟨b0, _ | ⟨b1, _ | ⟨b2, _ | ⟨b3, _ | ⟨b4, _ | ⟨b5, _ | ⟨b6, _ | ⟨b7, rest⟩⟩⟩⟩⟩⟩⟩⟩
      all_goals rw [hd] at hlen
      all_goals simp only [List.length_cons, List.length_nil] at hlen
      all_goals try omega
      rw [packByte_eq m.recoveredBits i b0 b1 b2 b3 b4 b5 b6 b7 rest hd]
      simp only []
      have hrest : m.recoveredBits.drop (i + 8) = rest := by
        rw [← List.drop_drop, hd]; rfl
      rw [ih (m.recoveredBits.length - (i + 8)) (by omega)
        { m with bytes := m.bytes ++ [bitsToByte [b0, b1, b2, b3, b4, b5, b6, b7]] } (i + 8) rfl]
      simp only [hrest, packText, List.append_assoc, List.singleton_append]
    · rw [if_neg hi, packText_short _ (by rw [List.length_drop]; omega)]
      simp

theorem decodeBitsRun_eq (signal code chSignal : List Int) (bytes : List Nat) :
    decodeBitsRun
        { chSignal := chSignal, stationCode := code, signal := signal, recoveredBits := [],
          bytes := bytes }
        (signal.length / code.length) code.length =
      ({ chSignal := chSignal, stationCode := code, signal := signal,
         recoveredBits := (List.range (signal.length / code.length)).map
           (fun i => if wrapInt (dot (window signal code.length i) code) > 0 then (1 : Int) else 0),
         bytes := bytes },
        none) := by
  have hloop := decodeBits_loop signal code chSignal bytes
    (List.range (signal.length / code.length)) (fun i hi => List.mem_range.1 hi) []
  rw [List.nil_append] at hloop
  unfold decodeBitsRun
  exact hloop

theorem DecodeRun_eq (m : DecodeMemory) (h : 0 < m.stationCode.length) :
    DecodeRun m =
      ({ chSignal := m.chSignal, stationCode := m.stationCode, signal := m.chSignal,
         recoveredBits := (List.range (m.chSignal.length / m.stationCode.length)).map
           (fun i => if wrapInt (dot (window m.chSignal m.stationCode.length i) m.stationCode) > 0
             then (1 : Int) else 0),
         bytes := packText ((List.range (m.chSignal.length / m.stationCode.length)).map
           (fun i => if wrapInt (dot (window m.chSignal m.stationCode.length i) m.stationCode) > 0
             then (1 : Int) else 0)) },
       .ok (packText ((List.range (m.chSignal.length / m.stationCode.length)).map
           (fun i => if wrapInt (dot (window m.chSignal m.stationCode.length i) m.stationCode) > 0
             then (1 : Int) else 0)))) := by
  unfold DecodeRun
  have h0 : (m.stationCode.length == 0) = false := by simpa using Nat.pos_iff_ne_zero.1 h
  simp only [h0, Bool.false_eq_true, if_false, copySlice_fresh, decodeBitsRun_eq,
    decodePackRun_eq _ _ 0 rfl, List.nil_append, List.drop_zero]

theorem DecodeRun_empty_code (m : DecodeMemory) (h : m.stationCode.length = 0) :
    DecodeRun m =
      ({ chSignal := m.chSignal, stationCode := m.stationCode, signal := m.chSignal,
         recoveredBits := [], bytes := [] },
       .error .divideByZero) := by
  unfold DecodeRun
  have h0 : (m.stationCode.length == 0) = true := by simpa using h
  simp only [h0, if_true, copySlice_fresh]

/-- C15: for every state of the memory that a call of Decode can reach, and every code,
the non-empty ones in particular, the call leaves the signal of the Channel and the
code as they were (same length, same values), it returns what Decode returns on that
signal and code, and a second call right after the first returns the identical result. -/
theorem Decode_read_only (m : DecodeMemory) :
    (DecodeRun m).1.chSignal = m.chSignal ∧
    (DecodeRun m).1.stationCode = m.stationCode ∧
    (DecodeRun m).2 = Decode { signal := m.chSignal } m.stationCode ∧
    (DecodeRun (DecodeRun m).1).2 = (DecodeRun m).2 ∧
    (0 < m.stationCode.length → ∃ text, (DecodeRun m).2 = .ok text) := by
  by_cases h : m.stationCode.length = 0
  · have hc : m.stationCode = [] := List.length_eq_zero.1 h
    have h2 : (DecodeRun m).1.stationCode.length = 0 := by
      rw [DecodeRun_empty_code m h]; exact h
    refine ⟨?_, ?_, ?_, ?_, fun hpos => absurd h (Nat.pos_iff_ne_zero.1 hpos)⟩
    · rw [DecodeRun_empty_code m h]
    · rw [DecodeRun_empty_code m h]
    · rw [DecodeRun_empty_code m h, Decode_eq, hc, recoverBits_empty_code]
    · rw [DecodeRun_empty_code _ h2, DecodeRun_empty_code m h]
  · have hpos : 0 < m.stationCode.length := Nat.pos_of_ne_zero h
    have h2 : 0 < (DecodeRun m).1.stationCode.length := by
      rw [DecodeRun_eq m hpos]; exact hpos
    refine ⟨?_, ?_, ?_, ?_, fun _ => ?_⟩
    · rw [DecodeRun_eq m hpos]
    · rw [DecodeRun_eq m hpos]
    · rw [DecodeRun_eq m hpos, Decode_eq]
      simp only [recoverBits_eq m.chSignal m.stationCode hpos]
    · rw [DecodeRun_eq _ h2, DecodeRun_eq m hpos]
    · exact ⟨_, by rw [DecodeRun_eq m hpos]⟩

/-! ## Bits to text -/

theorem packText_length : ∀ (n : Nat) (l : List Int), l.length = n → (packText l).length = n / 8 := by
  intro n
  induction n using Nat.strong_induction_on with
  | _ n ih =>
    intro l hl
    rcases l with _ | ⟨b0, _ | ⟨b1, _ | ⟨b2, _ | ⟨b3, _ | ⟨b4, _ | ⟨b5, _ | ⟨b6, _ | ⟨b7, rest⟩⟩⟩⟩⟩⟩⟩⟩
    all_goals simp only [List.length_cons, List.length_nil] at hl
    all_goals try (simp only [packText, List.length_nil]; omega)
    rw [packText, List.length_cons, ih rest.length (by omega) rest rfl]
    omega

theorem packText_getElem? :
    ∀ (k : Nat) (l : List Int), k < l.length / 8 →
      (packText l)[k]? = some (bitsToByte ((l.drop (8 * k)).take 8)) := by
  intro k
  induction k with
  | zero =>
    intro l hk
    rcases l with _ | ⟨b0, _ | ⟨b1, _ | ⟨b2, _ | ⟨b3, _ | ⟨b4, _ | ⟨b5, _ | ⟨b6, _ | ⟨b7, rest⟩⟩⟩⟩⟩⟩⟩⟩
    all_goals simp only [List.length_cons, List.length_nil] at hk
    all_goals try omega
    simp [packText]
  | succ k ih =>
    intro l hk
    rcases l with _ | ⟨b0, _ | ⟨b1, _ | ⟨b2, _ | ⟨b3, _ | ⟨b4, _ | ⟨b5, _ | ⟨b6, _ | ⟨b7, rest⟩⟩⟩⟩⟩⟩⟩⟩
    all_goals simp only [List.length_cons, List.length_nil] at hk
    all_goals try omega
    rw [packText, List.getElem?_cons_succ, ih rest (by omega)]
    have h8 : 8 * (k + 1) = 8 + 8 * k := by omega
    rw [h8, ← List.drop_drop]
    rfl

theorem asciiToBits_eq (s : String) : asciiToBits s = s.toList.flatMap (fun ch => runeBits ch.toNat) := by
  unfold asciiToBits
  suffices h : ∀ (l : List Char) (acc : List Int),
      l.foldl
        (fun bits ch =>
          [7, 6, 5, 4, 3, 2, 1, 0].foldl
            (fun bits1 i => bits1 ++ [if ch.toNat &&& (1 <<< i) != 0 then (1 : Int) else 0])
            bits)
        acc = acc ++ l.flatMap (fun ch => runeBits ch.toNat) by
    simpa using h s.toList []
  intro l
  induction l with
  | nil => intro acc; simp
  | cons c l ih =>
    intro acc
    rw [List.foldl_cons, ih]
    simp only [runeBits, List.foldl, List.map, List.flatMap_cons, List.append_assoc,
      List.cons_append, List.nil_append]

set_option maxRecDepth 100000 in
theorem bitsToByte_runeBits : ∀ c, c < 256 → bitsToByte (runeBits c) = c := by
  decide!

theorem packText_runeBits :
    ∀ (l : List Nat), (∀ c ∈ l, c < 256) → packText (l.flatMap runeBits) = l := by
  intro l
  induction l with
  | nil => intro _; rfl
  | cons c l ih =>
    intro h
    have hc := bitsToByte_runeBits c (h c (List.mem_cons_self _ _))
    have hl := ih (fun x hx => h x (List.mem_cons_of_mem _ hx))
    rw [List.flatMap_cons]
    have hshape : runeBits c ++ l.flatMap runeBits =
        (if c &&& (1 <<< 7) != 0 then (1 : Int) else 0) ::
        (if c &&& (1 <<< 6) != 0 then (1 : Int) else 0) ::
        (if c &&& (1 <<< 5) != 0 then (1 : Int) else 0) ::
        (if c &&& (1 <<< 4) != 0 then (1 : Int) else 0) ::
        (if c &&& (1 <<< 3) != 0 then (1 : Int) else 0) ::
        (if c &&& (1 <<< 2) != 0 then (1 : Int) else 0) ::
        (if c &&& (1 <<< 1) != 0 then (1 : Int) else 0) ::
        (if c &&& (1 <<< 0) != 0 then (1 : Int) else 0) :: l.flatMap runeBits := rfl
    rw [hshape, packText, hl]
    congr 1

theorem bitsToByte_weights (b0 b1 b2 b3 b4 b5 b6 b7 : Int) :
    bitsToByte [b0, b1, b2, b3, b4, b5, b6, b7] =
      128 * (if b0 == 1 then 1 else 0) + 64 * (if b1 == 1 then 1 else 0) +
      32 * (if b2 == 1 then 1 else 0) + 16 * (if b3 == 1 then 1 else 0) +
      8 * (if b4 == 1 then 1 else 0) + 4 * (if b5 == 1 then 1 else 0) +
      2 * (if b6 == 1 then 1 else 0) + (if b7 == 1 then 1 else 0) := by
  simp only [bitsToByte, List.foldl]
  generalize (if b0 == 1 then 1 else 0 : Nat) = x0
  generalize (if b1 == 1 then 1 else 0 : Nat) = x1
  generalize (if b2 == 1 then 1 else 0 : Nat) = x2
  generalize (if b3 == 1 then 1 else 0 : Nat) = x3
  generalize (if b4 == 1 then 1 else 0 : Nat) = x4
  generalize (if b5 == 1 then 1 else 0 : Nat) = x5
  generalize (if b6 == 1 then 1 else 0 : Nat) = x6
  generalize (if b7 == 1 then 1 else 0 : Nat) = x7
  omega

/-- C19: the packing loop of Decode never fails; for every recovered bit sequence of
length n it returns exactly floor(n / 8) bytes, byte k spelling the eight bits at
positions 8k to 8k+7 with the most significant bit first (weights 128, 64, ..., 1, a bit
being set when it is 1), and the n mod 8 bits after the last full group are dropped.
Consequently, for every text whose code points are all below 256, packing the output
of asciiToBits gives back exactly those code points as bytes. -/
theorem packing_bits_to_text :
    (∀ bits : List Int,
      ∃ bytes, packLoop bits 0 [] = .ok bytes ∧ bytes.length = bits.length / 8 ∧
        bytes = packText (bits.take (8 * (bits.length / 8))) ∧
        ∀ k, k < bits.length / 8 →
          bytes[k]? = some (bitsToByte ((bits.drop (8 * k)).take 8))) ∧
    (∀ b0 b1 b2 b3 b4 b5 b6 b7 : Int,
      bitsToByte [b0, b1, b2, b3, b4, b5, b6, b7] =
        128 * (if b0 == 1 then 1 else 0) + 64 * (if b1 == 1 then 1 else 0) +
        32 * (if b2 == 1 then 1 else 0) + 16 * (if b3 == 1 then 1 else 0) +
        8 * (if b4 == 1 then 1 else 0) + 4 * (if b5 == 1 then 1 else 0) +
        2 * (if b6 == 1 then 1 else 0) + (if b7 == 1 then 1 else 0)) ∧
    (∀ s : String, (∀ ch ∈ s.toList, ch.toNat < 256) →
      packLoop (asciiToBits s) 0 [] = .ok (s.toList.map Char.toNat)) := by
  refine ⟨?_, bitsToByte_weights, ?_⟩
  · intro bits
    refine ⟨packText bits, ?_, packText_length _ bits rfl, ?_, ?_⟩
    · rw [packLoop_eq bits _ 0 [] rfl]
      simp
    · apply List.ext_getElem?
      intro k
      have hlen : (bits.take (8 * (bits.length / 8))).length = 8 * (bits.length / 8) := by
        rw [List.length_take]
        have := Nat.div_mul_le_self bits.length 8
        omega
      by_cases hk : k < bits.length / 8
      · rw [packText_getElem? k bits hk,
          packText_getElem? k _ (by rw [hlen, Nat.mul_div_cancel_left _ (by decide)]; exact hk)]
        congr 2
        rw [List.drop_take, List.take_take]
        congr 1
        omega
      · rw [List.getElem?_eq_none (by rw [packText_length _ bits rfl]; omega),
          List.getElem?_eq_none (by
            rw [packText_length _ _ rfl, hlen, Nat.mul_div_cancel_left _ (by decide)]; omega)]
    · intro k hk
      exact packText_getElem? k bits hk
  · intro s hs
    rw [packLoop_eq _ _ 0 [] rfl, asciiToBits_eq]
    simp only [List.nil_append, List.drop_zero]
    have hmap : s.toList.flatMap (fun ch => runeBits ch.toNat) =
        (s.toList.map Char.toNat).flatMap runeBits := by
      rw [List.flatMap_def, List.flatMap_def, List.map_map]
      rfl
    rw [hmap, packText_runeBits _ (by
      intro c hc
      obtain ⟨ch, hch, rfl⟩ := List.mem_map.1 hc
      exact hs ch hch)]

/-! ## Recursive doubling -/

theorem walshEntry_right_high (k i j : Nat) (hk : k + 1 ≤ 62) (hi : i < 2 ^ k) (hj : j < 2 ^ k) :
    walshEntry i (2 ^ k + j) = walshEntry i j := by
  have h2 : 2 ^ k ≤ 2 ^ 61 := Nat.pow_le_pow_right (by decide) (by omega)
  rw [walshEntry_eq i (2 ^ k + j) (by omega) (by omega), walshEntry_eq i j (by omega) (by omega),
    sign_and_two_pow_add i k j (by omega) hj, Nat.testBit_lt_two_pow hi]
  simp

theorem walshEntry_left_high (k i j : Nat) (hk : k + 1 ≤ 62) (hi : i < 2 ^ k) (hj : j < 2 ^ k) :
    walshEntry (2 ^ k + i) j = walshEntry i j := by
  have h2 : 2 ^ k ≤ 2 ^ 61 := Nat.pow_le_pow_right (by decide) (by omega)
  rw [walshEntry_eq (2 ^ k + i) j (by omega) (by omega), walshEntry_eq i j (by omega) (by omega),
    Nat.land_comm (2 ^ k + i) j, sign_and_two_pow_add j k i (by omega) hi,
    Nat.testBit_lt_two_pow hj, Nat.land_comm j i]
  simp

theorem walshEntry_both_high (k i j : Nat) (hk : k + 1 ≤ 62) (hi : i < 2 ^ k) (hj : j < 2 ^ k) :
    walshEntry (2 ^ k + i) (2 ^ k + j) = -walshEntry i j := by
  have h2 : 2 ^ k ≤ 2 ^ 61 := Nat.pow_le_pow_right (by decide) (by omega)
  rw [← walshEntry_left_high k i j hk hi hj,
    walshEntry_eq (2 ^ k + i) (2 ^ k + j) (by omega) (by omega),
    walshEntry_eq (2 ^ k + i) j (by omega) (by omega),
    sign_and_two_pow_add (2 ^ k + i) k j (by omega) hj, Nat.testBit_two_pow_add_eq,
    Nat.testBit_lt_two_pow hi]
  simp

theorem map_range_add {α : Type} (f : Nat → α) (n : Nat) :
    (List.range (n + n)).map f = (List.range n).map f ++ (List.range n).map (fun j => f (n + j)) := by
  rw [List.range_add, List.map_append, List.map_map]
  rfl

theorem rows_doubling (e : Nat → Nat → Int) (n : Nat)
    (h1 : ∀ i j, i < n → j < n → e i (n + j) = e i j)
    (h2 : ∀ i j, i < n → j < n → e (n + i) j = e i j)
    (h3 : ∀ i j, i < n → j < n → e (n + i) (n + j) = -e i j) :
    (List.range (n + n)).map (fun i => (List.range (n + n)).map (fun j => e i j)) =
      sylvester ((List.range n).map (fun i => (List.range n).map (fun j => e i j))) := by
  have hrow1 : ∀ i, i < n → (List.range (n + n)).map (fun j => e i j) =
      (List.range n).map (fun j => e i j) ++ (List.range n).map (fun j => e i j) := by
    intro i hi
    rw [map_range_add]
    congr 1
    exact List.map_congr_left (fun j hj => h1 i j hi (List.mem_range.1 hj))
  have hrow2 : ∀ i, i < n → (List.range (n + n)).map (fun j => e (n + i) j) =
      (List.range n).map (fun j => e i j) ++
        ((List.range n).map (fun j => e i j)).map (fun x => -x) := by
    intro i hi
    rw [map_range_add, List.map_map]
    congr 1
    · exact List.map_congr_left (fun j hj => h2 i j hi (List.mem_range.1 hj))
    · exact List.map_congr_left (fun j hj => h3 i j hi (List.mem_range.1 hj))
  unfold sylvester
  rw [map_range_add, List.map_map, List.map_map]
  congr 1
  · exact List.map_congr_left (fun i hi => hrow1 i (List.mem_range.1 hi))
  · exact List.map_congr_left (fun i hi => hrow2 i (List.mem_range.1 hi))

theorem walsh_rows_doubling (k : Nat) (hk : k + 1 ≤ 62) :
    (List.range (2 ^ (k + 1))).map (fun i => (List.range (2 ^ (k + 1))).map (fun j => walshEntry i j)) =
      sylvester ((List.range (2 ^ k)).map (fun i => (List.range (2 ^ k)).map (fun j => walshEntry i j))) := by
  have h2 : 2 ^ (k + 1) = 2 ^ k + 2 ^ k := by rw [Nat.pow_succ]; omega
  rw [h2]
  exact rows_doubling walshEntry (2 ^ k)
    (fun i j hi hj => walshEntry_right_high k i j hk hi hj)
    (fun i j hi hj => walshEntry_left_high k i j hk hi hj)
    (fun i j hi hj => walshEntry_both_high k i j hk hi hj)

theorem walsh_rows_hadamard (k : Nat) (hk : k ≤ 62) :
    (List.range (2 ^ k)).map (fun i => (List.range (2 ^ k)).map (fun j => walshEntry i j)) =
      hadamard k := by
  induction k with
  | zero => decide
  | succ k ih => rw [walsh_rows_doubling k hk, ih (by omega), hadamard]

theorem walsh_rows_entry (n i j : Nat) (hi : i < n) (hj : j < n) :
    (((List.range n).map (fun i => (List.range n).map (fun j => walshEntry i j)))[i]?).bind
      (fun row => row[j]?) = some (walshEntry i j) := by
  rw [List.getElem?_map, List.getElem?_range hi]
  simp only [Option.map_some', Option.some_bind]
  rw [List.getElem?_map, List.getElem?_range hj]
  rfl

/-- C18: walshMatrix(1) is [[1]]; for every n = 2^k, whenever walshMatrix(n) returns H and
walshMatrix(2n) returns m2, the matrix m2 is the Sylvester doubling of H, the block
matrix with H H on top and H -H below: for all i, j < n the entries of m2 at (i, j),
(i, j+n) and (i+n, j) are H[i][j] and the entry at (i+n, j+n) is -H[i][j]; both calls do
return whenever make accepts the 2n rows (k + 1 <= 43); hence every matrix that
walshMatrix(2^k) returns is the matrix obtained from [[1]] by k doublings. -/
theorem hadamard_doubling :
    walshMatrix 1 = .ok [[1]] ∧
    (∀ k, k + 1 ≤ 43 →
      ∃ H m2, walshMatrix ((2 : Int) ^ k) = .ok H ∧ walshMatrix ((2 : Int) ^ (k + 1)) = .ok m2) ∧
    (∀ k H m2, walshMatrix ((2 : Int) ^ k) = .ok H → walshMatrix ((2 : Int) ^ (k + 1)) = .ok m2 →
      m2 = sylvester H ∧
      ∀ i j, i < 2 ^ k → j < 2 ^ k →
        ∃ h, (H[i]?).bind (fun row => row[j]?) = some h ∧
          (m2[i]?).bind (fun row => row[j]?) = some h ∧
          (m2[i]?).bind (fun row => row[j + 2 ^ k]?) = some h ∧
          (m2[i + 2 ^ k]?).bind (fun row => row[j]?) = some h ∧
          (m2[i + 2 ^ k]?).bind (fun row => row[j + 2 ^ k]?) = some (-h)) ∧
    (∀ k, k ≤ 43 → walshMatrix ((2 : Int) ^ k) = .ok (hadamard k)) ∧
    (∀ k m, walshMatrix ((2 : Int) ^ k) = .ok m → m = hadamard k) := by
  refine ⟨by decide, ?_, ?_, ?_, ?_⟩
  · intro k hk
    exact ⟨_, _, walshMatrix_two_pow k (by omega), walshMatrix_two_pow (k + 1) hk⟩
  · intro k H m2 hH hm2
    obtain ⟨hk, rfl⟩ := walshMatrix_ok_two_pow (k + 1) m2 hm2
    obtain ⟨-, rfl⟩ := walshMatrix_ok_two_pow k H hH
    have hk62 : k + 1 ≤ 62 := by omega
    refine ⟨walsh_rows_doubling k hk62, ?_⟩
    intro i j hi hj
    have h2 : 2 ^ (k + 1) = 2 ^ k + 2 ^ k := by rw [Nat.pow_succ]; omega
    refine ⟨walshEntry i j, walsh_rows_entry _ i j hi hj, ?_, ?_, ?_, ?_⟩
    · rw [walsh_rows_entry _ i j (by omega) (by omega)]
    · rw [walsh_rows_entry _ i (j + 2 ^ k) (by omega) (by omega), Nat.add_comm j,
        walshEntry_right_high k i j hk62 hi hj]
    · rw [walsh_rows_entry _ (i + 2 ^ k) j (by omega) (by omega), Nat.add_comm i,
        walshEntry_left_high k i j hk62 hi hj]
    · rw [walsh_rows_entry _ (i + 2 ^ k) (j + 2 ^ k) (by omega) (by omega), Nat.add_comm i,
        Nat.add_comm j, walshEntry_both_high k i j hk62 hi hj]
  · intro k hk
    rw [walshMatrix_two_pow k hk, walsh_rows_hadamard k (by omega)]
  · intro k m hm
    obtain ⟨hk, rfl⟩ := walshMatrix_ok_two_pow k m hm
    exact walsh_rows_hadamard k (by omega)

/-! ## Exact correlation under Walsh codes -/

theorem walshEntry_unit (i j : Nat) : walshEntry i j = 1 ∨ walshEntry i j = -1 := by
  unfold walshEntry
  simp only []
  split
  · left; rfl
  · right; rfl

theorem zipWith_addInt_exact (n : Int) (hn0 : 0 ≤ n) (hn : n + 1 < 2 ^ 63) :
    ∀ (u v : List Int), (∀ x ∈ u, -n ≤ x ∧ x ≤ n) → (∀ y ∈ v, y = 1 ∨ y = -1) →
      List.zipWith addInt u v = List.zipWith (fun a b => a + b) u v ∧
      ∀ z ∈ List.zipWith (fun a b => a + b) u v, -(n + 1) ≤ z ∧ z ≤ n + 1 := by
  intro u
  induction u with
  | nil => intro v _ _; simp
  | cons x u ih =>
    intro v hu hv
    cases v with
    | nil => simp
    | cons y v =>
      obtain ⟨h1, h2⟩ := ih v (fun a ha => hu a (List.mem_cons_of_mem _ ha))
        (fun a ha => hv a (List.mem_cons_of_mem _ ha))
      have hx := hu x (List.mem_cons_self _ _)
      have hy := hv y (List.mem_cons_self _ _)
      have hxy : addInt x y = x + y := by
        unfold addInt
        apply wrapInt_of_range <;> rcases hy with rfl | rfl <;> omega
      constructor
      · rw [List.zipWith_cons_cons, List.zipWith_cons_cons, h1, hxy]
      · intro z hz
        rw [List.zipWith_cons_cons, List.mem_cons] at hz
        rcases hz with rfl | hz
        · rcases hy with rfl | rfl <;> omega
        · exact h2 z hz

theorem dot_zipWith_add :
    ∀ (u v c : List Int), u.length = v.length →
      dot (List.zipWith (fun a b => a + b) u v) c = dot u c + dot v c := by
  intro u
  induction u with
  | nil =>
    intro v c h
    have hv : v = [] := List.length_eq_zero.1 h.symm
    subst hv
    simp [dot_nil_left]
  | cons x u ih =>
    intro v c h
    cases v with
    | nil => simp at h
    | cons y v =>
      cases c with
      | nil => simp [dot_nil_right]
      | cons z c =>
        rw [List.zipWith_cons_cons, dot_cons, dot_cons, dot_cons, ih v c (by simpa using h)]
        ring

theorem dot_map_mul (v : Int) : ∀ (C D : List Int), dot (C.map (fun c => v * c)) D = v * dot C D := by
  intro C
  induction C with
  | nil => intro D; simp [dot_nil_left]
  | cons c C ih =>
    intro D
    cases D with
    | nil => simp [dot_nil_right]
    | cons d D =>
      rw [List.map_cons, dot_cons, dot_cons, ih D]
      ring

theorem spread_window_exact (code : List Int) (b : Int) (hcode : ∀ c ∈ code, c = 1 ∨ c = -1) :
    code.map (fun c => mulInt (if b == 0 then -1 else 1) c) =
      code.map (fun c => (if b == 0 then -1 else 1) * c) := by
  apply List.map_congr_left
  intro c hc
  unfold mulInt
  apply wrapInt_of_range <;> rcases hcode c hc with rfl | rfl <;> split <;> decide

theorem spread_chips_unit (bits code : List Int) (hcode : ∀ c ∈ code, c = 1 ∨ c = -1) :
    ∀ y ∈ (bits.map (fun b => code.map (fun c => mulInt (if b == 0 then -1 else 1) c))).flatten,
      y = 1 ∨ y = -1 := by
  intro y hy
  obtain ⟨p, hp, hyp⟩ := List.mem_flatten.1 hy
  obtain ⟨b, -, rfl⟩ := List.mem_map.1 hp
  rw [spread_window_exact code b hcode] at hyp
  obtain ⟨c, hc, rfl⟩ := List.mem_map.1 hyp
  rcases hcode c hc with rfl | rfl <;> split <;> decide

theorem superpose_windows_exact (N M : Nat) :
    ∀ (rest : List (List Int × List Int)) (S : List Int) (f : Nat → List Int → Int) (n : Nat),
      (∀ pr ∈ rest, pr.2.length = N ∧ pr.1.length = M ∧ ∀ c ∈ pr.2, c = 1 ∨ c = -1) →
      S.length = M * N →
      (∀ x ∈ S, -(n : Int) ≤ x ∧ x ≤ n) →
      ((n : Int) + rest.length < 2 ^ 63) →
      (∀ i, i < M → ∀ c : List Int, dot (window S N i) c = f i c) →
      ∃ ch, superpose rest { signal := S } = .ok ch ∧ ch.signal.length = M * N ∧
        ∀ i, i < M → ∀ c : List Int,
          dot (window ch.signal N i) c =
            f i c + (rest.map (fun pr =>
              (if pr.1.getD i 0 == 0 then -1 else 1) * dot pr.2 c)).sum := by
  intro rest
  induction rest with
  | nil =>
    intro S f n _ hS _ _ hf
    exact ⟨{ signal := S }, rfl, hS, fun i hi c => by simpa using hf i hi c⟩
  | cons pr rest ih =>
    intro S f n hshape hS hbound hn hf
    obtain ⟨hpN, hpM, hpU⟩ := hshape pr (List.mem_cons_self _ _)
    have hparts := spread_windows_length pr.1 pr.2
    rw [hpN] at hparts
    have hchips : ((pr.1.map (fun b => pr.2.map
        (fun c => mulInt (if b == 0 then -1 else 1) c))).flatten).length = M * N := by
      rw [length_flatten_uniform N _ hparts, List.length_map, hpM]
    simp only [List.length_cons, Nat.cast_add, Nat.cast_one] at hn
    obtain ⟨hexact, hbound2⟩ := zipWith_addInt_exact (n : Int) (Int.natCast_nonneg n) (by omega)
      S _ hbound (spread_chips_unit pr.1 pr.2 hpU)
    have hstep : ∀ i, i < M → ∀ c : List Int,
        dot (window (List.zipWith addInt S ((pr.1.map (fun b => pr.2.map
          (fun c => mulInt (if b == 0 then -1 else 1) c))).flatten)) N i) c =
          f i c + (if pr.1.getD i 0 == 0 then -1 else 1) * dot pr.2 c := by
      intro i hi c
      have hb : i * N + N ≤ M * N := by
        have : (i + 1) * N ≤ M * N := Nat.mul_le_mul_right _ hi
        rw [Nat.succ_mul] at this
        exact this
      have hi1 : i < pr.1.length := by omega
      have hw := window_flatten N _ hparts i
        (pr.2.map (fun c => mulInt (if pr.1.getD i 0 == 0 then -1 else 1) c))
        (by
          rw [List.getElem?_map, List.getElem?_eq_getElem hi1, Option.map_some']
          rw [List.getD_eq_getElem _ _ hi1])
      rw [hexact, window_zipWith, dot_zipWith_add _ _ c (by
        rw [window_length S N i (by omega), window_length _ N i (by omega)]), hw,
        spread_window_exact pr.2 _ hpU, dot_map_mul, hf i hi c]
    obtain ⟨ch, h1, h2, h3⟩ := ih (List.zipWith addInt S ((pr.1.map (fun b => pr.2.map
        (fun c => mulInt (if b == 0 then -1 else 1) c))).flatten))
      (fun i c => f i c + (if pr.1.getD i 0 == 0 then -1 else 1) * dot pr.2 c) (n + 1)
      (fun q hq => hshape q (List.mem_cons_of_mem _ hq))
      (by rw [List.length_zipWith, hS, hchips, Nat.min_self])
      (by
        intro x hx
        rw [hexact] at hx
        have := hbound2 x hx
        push_cast
        omega)
      (by push_cast; omega) hstep
    refine ⟨ch, ?_, h2, ?_⟩
    · rw [superpose, stationOf_eq]
      simp only []
      rw [AddStation_same_length _ _ (by simp only []; rw [hS, hchips])]
      exact h1
    · intro i hi c
      rw [h3 i hi c, List.map_cons, List.sum_cons, add_assoc]

theorem superpose_fresh_exact (N M : Nat) (pairs : List (List Int × List Int))
    (hshape : ∀ pr ∈ pairs, pr.2.length = N ∧ pr.1.length = M ∧ ∀ c ∈ pr.2, c = 1 ∨ c = -1)
    (hne : pairs ≠ []) (hcount : (pairs.length : Int) < 2 ^ 63) :
    ∃ ch, superpose pairs NewChannel = .ok ch ∧ ch.signal.length = M * N ∧
      ∀ i, i < M → ∀ c : List Int,
        dot (window ch.signal N i) c =
          (pairs.map (fun pr => (if pr.1.getD i 0 == 0 then -1 else 1) * dot pr.2 c)).sum := by
  cases pairs with
  | nil => exact absurd rfl hne
  | cons pr rest =>
    obtain ⟨hpN, hpM, hpU⟩ := hshape pr (List.mem_cons_self _ _)
    have hparts := spread_windows_length pr.1 pr.2
    rw [hpN] at hparts
    have hchips : ((pr.1.map (fun b => pr.2.map
        (fun c => mulInt (if b == 0 then -1 else 1) c))).flatten).length = M * N := by
      rw [length_flatten_uniform N _ hparts, List.length_map, hpM]
    have hfirst : ∀ i, i < M → ∀ c : List Int,
        dot (window ((pr.1.map (fun b => pr.2.map
          (fun c => mulInt (if b == 0 then -1 else 1) c))).flatten) N i) c =
          (if pr.1.getD i 0 == 0 then -1 else 1) * dot pr.2 c := by
      intro i hi c
      have hi1 : i < pr.1.length := by omega
      have hw := window_flatten N _ hparts i
        (pr.2.map (fun c => mulInt (if pr.1.getD i 0 == 0 then -1 else 1) c))
        (by
          rw [List.getElem?_map, List.getElem?_eq_getElem hi1, Option.map_some']
          rw [List.getD_eq_getElem _ _ hi1])
      rw [hw, spread_window_exact pr.2 _ hpU, dot_map_mul]
    simp only [List.length_cons, Nat.cast_add, Nat.cast_one] at hcount
    obtain ⟨ch, h1, h2, h3⟩ := superpose_windows_exact N M rest _ _ 1
      (fun q hq => hshape q (List.mem_cons_of_mem _ hq)) hchips
      (by
        intro x hx
        rcases spread_chips_unit pr.1 pr.2 hpU x hx with rfl | rfl <;> simp)
      (by push_cast; omega) hfirst
    refine ⟨ch, ?_, h2, ?_⟩
    · rw [superpose, stationOf_eq]
      simp only []
      rw [AddStation_fresh]
      exact h1
    · intro i hi c
      rw [List.map_cons, List.sum_cons]
      exact h3 i hi c

theorem walsh_row_dot (k : Nat) (hk : k ≤ 62) (a b : Nat) (ha : a < 2 ^ k) (hb : b < 2 ^ k) :
    dot ((List.range (2 ^ k)).map (fun j => walshEntry a j))
        ((List.range (2 ^ k)).map (fun j => walshEntry b j)) =
      if a = b then 2 ^ k else 0 := by
  have hle : 2 ^ k ≤ 2 ^ 62 := Nat.pow_le_pow_right (by decide) hk
  rw [dot_map_map, sum_map_range, ← orth_sum_eq k (by omega) a b ha hb]
  apply Finset.sum_congr rfl
  intro j hj
  have hj1 : j < 2 ^ k := Finset.mem_range.1 hj
  rw [walshEntry_eq a j (by omega) (by omega), walshEntry_eq b j (by omega) (by omega)]

theorem walsh_rows_getD (n r : Nat) (hr : r < n) :
    ((List.range n).map (fun i => (List.range n).map (fun j => walshEntry i j))).getD r [] =
      (List.range n).map (fun j => walshEntry r j) := by
  rw [List.getD_eq_getElem?_getD, List.getElem?_map, List.getElem?_range hr]
  rfl

theorem nodup_index_ne {rows : List Nat} (h : rows.Nodup) {a b r s : Nat}
    (ha : rows[a]? = some r) (hb : rows[b]? = some s) (hab : a ≠ b) : r ≠ s := by
  obtain ⟨ha1, rfl⟩ := List.getElem?_eq_some.1 ha
  obtain ⟨hb1, rfl⟩ := List.getElem?_eq_some.1 hb
  intro heq
  exact hab ((h.getElem_inj_iff).1 heq)

theorem spread_window_dot (code bits : List Int) (i : Nat) (b : Int) (c : List Int)
    (hcode : ∀ x ∈ code, x = 1 ∨ x = -1) (hib : bits[i]? = some b) :
    ∃ stream, spreadLoop bits code = .ok stream ∧
      dot (window stream code.length i) c = (if b == 0 then -1 else 1) * dot code c := by
  refine ⟨_, spreadLoop_eq bits code, ?_⟩
  rw [List.flatMap_def]
  rw [window_flatten code.length _ (by
      intro p hp
      obtain ⟨x, -, rfl⟩ := List.mem_map.1 hp
      simp) i (code.map (fun c => mulInt (if b == 0 then -1 else 1) c)) (by
      rw [List.getElem?_map, hib]; rfl)]
  rw [spread_window_exact code b hcode, dot_map_mul]

theorem walsh_interference (k M : Nat) (rows : List Nat) (bitss : List (List Int))
    (hk : k ≤ 62) (hK : rows.length ≤ 2 ^ k) (_hlen : bitss.length = rows.length)
    (hnodup : rows.Nodup) (hrows : ∀ r ∈ rows, r < 2 ^ k)
    (hbits : ∀ bs ∈ bitss, bs.length = M ∧ ∀ b ∈ bs, b = 0 ∨ b = 1) :
    ∃ ch, superpose (bitss.zip (rows.map (fun r => ((List.range (2 ^ k)).map (fun i => (List.range (2 ^ k)).map (fun j => walshEntry i j))).getD r [])))
        NewChannel = .ok ch ∧
      ∀ i, i < M →
        (∀ (t r : Nat) (bits : List Int) (b : Int),
          rows[t]? = some r → bitss[t]? = some bits → bits[i]? = some b →
          dot (window ch.signal (2 ^ k) i) (((List.range (2 ^ k)).map (fun i => (List.range (2 ^ k)).map (fun j => walshEntry i j))).getD r []) =
              (if b = 1 then (2 : Int) ^ k else -(2 : Int) ^ k) ∧
            correlate ch.signal (((List.range (2 ^ k)).map (fun i => (List.range (2 ^ k)).map (fun j => walshEntry i j))).getD r []) (i * 2 ^ k) =
              .ok (if b = 1 then (2 : Int) ^ k else -(2 : Int) ^ k) ∧
            ∃ stream, spreadLoop bits (((List.range (2 ^ k)).map (fun i => (List.range (2 ^ k)).map (fun j => walshEntry i j))).getD r []) = .ok stream ∧
              ∀ r2, r2 < 2 ^ k → r2 ≠ r →
                dot (window stream (2 ^ k) i) (((List.range (2 ^ k)).map (fun i => (List.range (2 ^ k)).map (fun j => walshEntry i j))).getD r2 []) = 0) ∧
        (∀ r, r < 2 ^ k → r ∉ rows →
          dot (window ch.signal (2 ^ k) i) (((List.range (2 ^ k)).map (fun i => (List.range (2 ^ k)).map (fun j => walshEntry i j))).getD r []) = 0) := by
  have hle : 2 ^ k ≤ 2 ^ 62 := Nat.pow_le_pow_right (by decide) hk
  refine ⟨(match superpose (bitss.zip (rows.map (fun r =>
      ((List.range (2 ^ k)).map
        (fun i => (List.range (2 ^ k)).map (fun j => walshEntry i j))).getD r [])))
      NewChannel with
    | .ok ch => ch
    | .error _ => NewChannel), ?_⟩
  -- the code of every station is a row of the matrix
  have hcode : ∀ (t : Nat) (c : List Int),
      (rows.map (fun r => ((List.range (2 ^ k)).map
        (fun i => (List.range (2 ^ k)).map (fun j => walshEntry i j))).getD r []))[t]? = some c →
      ∃ r, rows[t]? = some r ∧ r < 2 ^ k ∧ c = (List.range (2 ^ k)).map (fun j => walshEntry r j) := by
    intro t c hc
    rw [List.getElem?_map] at hc
    cases hr : rows[t]? with
    | none => rw [hr] at hc; simp at hc
    | some r =>
      rw [hr, Option.map_some', Option.some.injEq] at hc
      have hr2 := hrows r (List.getElem?_mem hr)
      exact ⟨r, rfl, hr2, by rw [← hc, walsh_rows_getD _ r hr2]⟩
  have hshape : ∀ pr ∈ bitss.zip (rows.map (fun r => ((List.range (2 ^ k)).map
      (fun i => (List.range (2 ^ k)).map (fun j => walshEntry i j))).getD r [])),
      pr.2.length = 2 ^ k ∧ pr.1.length = M ∧ ∀ c ∈ pr.2, c = 1 ∨ c = -1 := by
    rintro ⟨bs, c⟩ hpr
    obtain ⟨h1, h2⟩ := List.of_mem_zip hpr
    obtain ⟨t, ht⟩ := List.getElem?_of_mem h2
    obtain ⟨r, -, -, rfl⟩ := hcode t c ht
    refine ⟨by simp, (hbits bs h1).1, ?_⟩
    intro x hx
    obtain ⟨j, -, rfl⟩ := List.mem_map.1 hx
    exact walshEntry_unit r j
  by_cases hne : bitss.zip (rows.map (fun r => ((List.range (2 ^ k)).map
      (fun i => (List.range (2 ^ k)).map (fun j => walshEntry i j))).getD r [])) = []
  · rw [hne]
    refine ⟨rfl, ?_⟩
    intro i _
    constructor
    · intro t r bits b hr hb _
      have hz : (bitss.zip (rows.map (fun r => ((List.range (2 ^ k)).map
          (fun i => (List.range (2 ^ k)).map (fun j => walshEntry i j))).getD r [])))[t]? =
          some (bits, ((List.range (2 ^ k)).map
            (fun i => (List.range (2 ^ k)).map (fun j => walshEntry i j))).getD r []) :=
        List.getElem?_zip_eq_some.2 ⟨hb, by rw [List.getElem?_map, hr]; rfl⟩
      rw [hne] at hz
      simp at hz
    · intro r _ _
      simp [superpose, NewChannel, window, dot_nil_left]
  · have hcount : ((bitss.zip (rows.map (fun r => ((List.range (2 ^ k)).map
        (fun i => (List.range (2 ^ k)).map (fun j => walshEntry i j))).getD r []))).length : Int)
        < 2 ^ 63 := by
      have h1 : (bitss.zip (rows.map (fun r => ((List.range (2 ^ k)).map
          (fun i => (List.range (2 ^ k)).map (fun j => walshEntry i j))).getD r []))).length
          ≤ rows.length := by
        rw [List.length_zip, List.length_map]
        exact Nat.min_le_right _ _
      have h2 : (bitss.zip (rows.map (fun r => ((List.range (2 ^ k)).map
          (fun i => (List.range (2 ^ k)).map (fun j => walshEntry i j))).getD r []))).length
          < 2 ^ 63 := by omega
      exact_mod_cast h2
    obtain ⟨ch, h1, h2, h3⟩ := superpose_fresh_exact (2 ^ k) M _ hshape hne hcount
    rw [h1]
    refine ⟨rfl, ?_⟩
    intro i hi
    simp only []
    constructor
    · intro t r bits b hr hb hib
      have hr2 := hrows r (List.getElem?_mem hr)
      have hz : (bitss.zip (rows.map (fun r => ((List.range (2 ^ k)).map
          (fun i => (List.range (2 ^ k)).map (fun j => walshEntry i j))).getD r [])))[t]? =
          some (bits, ((List.range (2 ^ k)).map
            (fun i => (List.range (2 ^ k)).map (fun j => walshEntry i j))).getD r []) :=
        List.getElem?_zip_eq_some.2 ⟨hb, by rw [List.getElem?_map, hr]; rfl⟩
      have hsum := sum_map_single
        (fun (pr : List Int × List Int) => (if pr.1.getD i 0 == 0 then -1 else 1) *
          dot pr.2 (((List.range (2 ^ k)).map
            (fun i => (List.range (2 ^ k)).map (fun j => walshEntry i j))).getD r []))
        _ t _ hz
        (by
          intro t1 y hy ht1
          obtain ⟨-, hy2⟩ := List.getElem?_zip_eq_some.1 hy
          obtain ⟨r1, hr1, hr1lt, hy3⟩ := hcode t1 y.2 hy2
          have hne1 : r1 ≠ r := nodup_index_ne hnodup hr1 hr ht1
          simp only []
          rw [hy3, walsh_rows_getD _ r hr2, walsh_row_dot k hk r1 r hr1lt hr2, if_neg hne1,
            mul_zero])
      have hdot : dot (window ch.signal (2 ^ k) i) (((List.range (2 ^ k)).map
          (fun i => (List.range (2 ^ k)).map (fun j => walshEntry i j))).getD r []) =
          (if b = 1 then (2 : Int) ^ k else -(2 : Int) ^ k) := by
        rw [h3 i hi, hsum]
        simp only []
        have hgetD : bits.getD i 0 = b := by
          rw [List.getD_eq_getElem?_getD, hib]; rfl
        rw [hgetD, walsh_rows_getD _ r hr2, walsh_row_dot k hk r r hr2 hr2, if_pos rfl]
        rcases (hbits bits (List.getElem?_mem hb)).2 b (List.getElem?_mem hib) with rfl | rfl
        · simp
        · simp
      have hunit : ∀ x ∈ ((List.range (2 ^ k)).map
          (fun i => (List.range (2 ^ k)).map (fun j => walshEntry i j))).getD r [],
          x = 1 ∨ x = -1 := by
        intro x hx
        rw [walsh_rows_getD _ r hr2] at hx
        obtain ⟨j, -, rfl⟩ := List.mem_map.1 hx
        exact walshEntry_unit r j
      have hlen2 : (((List.range (2 ^ k)).map
          (fun i => (List.range (2 ^ k)).map (fun j => walshEntry i j))).getD r []).length =
          2 ^ k := by
        rw [walsh_rows_getD _ r hr2]; simp
      have hstream : ∃ stream, spreadLoop bits (((List.range (2 ^ k)).map
          (fun i => (List.range (2 ^ k)).map (fun j => walshEntry i j))).getD r []) = .ok stream ∧
          ∀ r2, r2 < 2 ^ k → r2 ≠ r →
            dot (window stream (2 ^ k) i) (((List.range (2 ^ k)).map
              (fun i => (List.range (2 ^ k)).map (fun j => walshEntry i j))).getD r2 []) = 0 := by
        refine ⟨_, spreadLoop_eq bits _, ?_⟩
        intro r2 hr2lt hr2ne
        obtain ⟨stream, hs1, hs2⟩ := spread_window_dot _ bits i b
          (((List.range (2 ^ k)).map
            (fun i => (List.range (2 ^ k)).map (fun j => walshEntry i j))).getD r2 []) hunit hib
        rw [spreadLoop_eq] at hs1
        rw [Except.ok.injEq] at hs1
        rw [hlen2] at hs2
        have hz : (if r = r2 then (2 : Int) ^ k else 0) = 0 := if_neg (fun h => hr2ne h.symm)
        rw [hs1, hs2, walsh_rows_getD _ r hr2, walsh_rows_getD _ r2 hr2lt,
          walsh_row_dot k hk r r2 hr2 hr2lt, hz, mul_zero]
      refine ⟨hdot, ?_, hstream⟩
      have hclen : (((List.range (2 ^ k)).map
          (fun i => (List.range (2 ^ k)).map (fun j => walshEntry i j))).getD r []).length =
          2 ^ k := by
        rw [walsh_rows_getD _ r hr2]; simp
      have hb2 : i * 2 ^ k + 2 ^ k ≤ M * 2 ^ k := by
        have : (i + 1) * 2 ^ k ≤ M * 2 ^ k := Nat.mul_le_mul_right _ hi
        rw [Nat.succ_mul] at this
        exact this
      rw [correlate_eq ch.signal _ (i * 2 ^ k) (by rw [hclen, h2]; exact hb2), hclen]
      have hw : (ch.signal.drop (i * 2 ^ k)).take (2 ^ k) = window ch.signal (2 ^ k) i := rfl
      rw [hw, hdot]
      congr 1
      have hpow : ((2 : Int) ^ k) ≤ 2 ^ 62 := by exact_mod_cast hle
      have hpos : (0 : Int) < 2 ^ k := by positivity
      apply wrapInt_of_range <;> split <;> omega
    · intro r hr hnot
      rw [h3 i hi]
      apply List.sum_eq_zero
      intro z hz
      obtain ⟨pr, hpr, rfl⟩ := List.mem_map.1 hz
      obtain ⟨t, ht⟩ := List.getElem?_of_mem hpr
      obtain ⟨-, ht2⟩ := List.getElem?_zip_eq_some.1 ht
      obtain ⟨r1, hr1, hr1lt, hy3⟩ := hcode t pr.2 ht2
      have hne1 : r1 ≠ r := fun h => hnot (h ▸ List.getElem?_mem hr1)
      rw [hy3, walsh_rows_getD _ r hr, walsh_row_dot k hk r1 r hr1lt hr, if_neg hne1, mul_zero]


/-- C17: for every N = 2^k and every matrix m that walshMatrix(N) returns, every list of
K <= N distinct row indices of m and K sequences of 0/1 bits of one common length M,
after spreading each bit sequence with its row and adding the K stations to a fresh
Channel, for every window i < M: the dot product of window i of the signal with the row
of a station is exactly +N if that station's bit i is 1 and exactly -N if it is 0, which
is also the sum that Decode accumulates; window i of that station's own chip stream has
dot product exactly 0 with every other row, so a station contributes exactly 0 to the
correlation of every other station; and the dot product of window i of the signal with
any row of m that no station uses is exactly 0. walshMatrix(2^k) does return a matrix
for every k <= 43, the powers of two whose slice of rows make accepts. -/
theorem interference_cancellation :
    (∀ k, k ≤ 43 → ∃ m, walshMatrix ((2 : Int) ^ k) = .ok m) ∧
    ∀ (k M : Nat) (m : List (List Int)) (rows : List Nat) (bitss : List (List Int)),
      walshMatrix ((2 : Int) ^ k) = .ok m → rows.length ≤ 2 ^ k →
      bitss.length = rows.length → rows.Nodup → (∀ r ∈ rows, r < 2 ^ k) →
      (∀ bs ∈ bitss, bs.length = M ∧ ∀ b ∈ bs, b = 0 ∨ b = 1) →
      ∃ ch, superpose (bitss.zip (rows.map (fun r => m.getD r [])))
          NewChannel = .ok ch ∧
        ∀ i, i < M →
          (∀ (t r : Nat) (bits : List Int) (b : Int),
            rows[t]? = some r → bitss[t]? = some bits → bits[i]? = some b →
            dot (window ch.signal (2 ^ k) i) (m.getD r []) =
                (if b = 1 then (2 : Int) ^ k else -(2 : Int) ^ k) ∧
              correlate ch.signal (m.getD r []) (i * 2 ^ k) =
                .ok (if b = 1 then (2 : Int) ^ k else -(2 : Int) ^ k) ∧
              ∃ stream, spreadLoop bits (m.getD r []) = .ok stream ∧
                ∀ r2, r2 < 2 ^ k → r2 ≠ r →
                  dot (window stream (2 ^ k) i) (m.getD r2 []) = 0) ∧
          (∀ r, r < 2 ^ k → r ∉ rows →
            dot (window ch.signal (2 ^ k) i) (m.getD r []) = 0) := by
  refine ⟨fun k hk => ⟨_, walshMatrix_two_pow k hk⟩, ?_⟩
  intro k M m rows bitss hm hK hlen hnodup hrows hbits
  obtain ⟨hk, rfl⟩ := walshMatrix_ok_two_pow k m hm
  exact walsh_interference k M rows bitss (by omega) hK hlen hnodup hrows hbits

theorem interference_cancellation_witness :
    (2 ≤ 43 ∧ ∃ m, walshMatrix ((2 : Int) ^ 2) = .ok m) ∧
    (walshMatrix ((2 : Int) ^ 2) =
        .ok [[1, 1, 1, 1], [1, -1, 1, -1], [1, 1, -1, -1], [1, -1, -1, 1]] ∧
      [1, 3].length ≤ 2 ^ 2 ∧ [[(1 : Int), 0, 1], [0, 0, 1]].length = [1, 3].length ∧
      [1, 3].Nodup ∧ (∀ r ∈ [1, 3], r < 2 ^ 2) ∧
      (∀ bs ∈ [[(1 : Int), 0, 1], [0, 0, 1]], bs.length = 3 ∧ ∀ b ∈ bs, b = 0 ∨ b = 1)) ∧
    ∃ ch, superpose ([[(1 : Int), 0, 1], [0, 0, 1]].zip ([1, 3].map (fun r => ([[1, 1, 1, 1], [1, -1, 1, -1], [1, 1, -1, -1], [1, -1, -1, 1]] : List (List Int)).getD r [])))
        NewChannel = .ok ch ∧
      ∀ i, i < 3 →
        (∀ (t r : Nat) (bits : List Int) (b : Int),
          [1, 3][t]? = some r → [[(1 : Int), 0, 1], [0, 0, 1]][t]? = some bits → bits[i]? = some b →
          dot (window ch.signal (2 ^ 2) i) (([[1, 1, 1, 1], [1, -1, 1, -1], [1, 1, -1, -1], [1, -1, -1, 1]] : List (List Int)).getD r []) =
              (if b = 1 then (2 : Int) ^ 2 else -(2 : Int) ^ 2) ∧
            correlate ch.signal (([[1, 1, 1, 1], [1, -1, 1, -1], [1, 1, -1, -1], [1, -1, -1, 1]] : List (List Int)).getD r []) (i * 2 ^ 2) =
              .ok (if b = 1 then (2 : Int) ^ 2 else -(2 : Int) ^ 2) ∧
            ∃ stream, spreadLoop bits (([[1, 1, 1, 1], [1, -1, 1, -1], [1, 1, -1, -1], [1, -1, -1, 1]] : List (List Int)).getD r []) = .ok stream ∧
              ∀ r2, r2 < 2 ^ 2 → r2 ≠ r →
                dot (window stream (2 ^ 2) i) (([[1, 1, 1, 1], [1, -1, 1, -1], [1, 1, -1, -1], [1, -1, -1, 1]] : List (List Int)).getD r2 []) = 0) ∧
        (∀ r, r < 2 ^ 2 → r ∉ [1, 3] →
          dot (window ch.signal (2 ^ 2) i) (([[1, 1, 1, 1], [1, -1, 1, -1], [1, 1, -1, -1], [1, -1, -1, 1]] : List (List Int)).getD r []) = 0) :=
  ⟨⟨by decide, interference_cancellation.1 2 (by decide)⟩, by decide,
    interference_cancellation.2 2 3 _ [1, 3] [[1, 0, 1], [0, 0, 1]]
      (by decide) (by decide) (by decide) (by decide) (by decide) (by decide)⟩

/-! ## The general statements at concrete inputs -/

theorem superposition_rule_witness :
    (([{ id := 0, name := "", word := "", code := [], bits := [1, -1] },
        { id := 1, name := "", word := "", code := [], bits := [1, 1] }] : List Station) ≠ [] ∧
      ∀ s ∈ ([{ id := 0, name := "", word := "", code := [], bits := [1, -1] },
        { id := 1, name := "", word := "", code := [], bits := [1, 1] }] : List Station),
        s.bits.length = 2 ∧ ∀ c ∈ s.bits, -2 ^ 63 ≤ c ∧ c < 2 ^ 63) ∧
    ∃ ch, addStations
        [{ id := 0, name := "", word := "", code := [], bits := [1, -1] },
          { id := 1, name := "", word := "", code := [], bits := [1, 1] }] NewChannel =
        (ch, none) ∧ ch.signal.length = 2 ∧
      ∀ i, i < 2 →
        ch.signal[i]? = some (wrapInt (chipSum
          [{ id := 0, name := "", word := "", code := [], bits := [1, -1] },
            { id := 1, name := "", word := "", code := [], bits := [1, 1] }] i)) ∧
        (-2 ^ 63 ≤ chipSum
            [{ id := 0, name := "", word := "", code := [], bits := [1, -1] },
              { id := 1, name := "", word := "", code := [], bits := [1, 1] }] i →
          chipSum
            [{ id := 0, name := "", word := "", code := [], bits := [1, -1] },
              { id := 1, name := "", word := "", code := [], bits := [1, 1] }] i < 2 ^ 63 →
          ch.signal[i]? = some (chipSum
            [{ id := 0, name := "", word := "", code := [], bits := [1, -1] },
              { id := 1, name := "", word := "", code := [], bits := [1, 1] }] i)) :=
  ⟨by decide, superposition_rule.2.2
    [{ id := 0, name := "", word := "", code := [], bits := [1, -1] },
      { id := 1, name := "", word := "", code := [], bits := [1, 1] }] 2 (by decide) (by decide)⟩

theorem Decode_fails_on_empty_code_only_witness :
    (([] : List Int).length = 0 ∧
      Decode { signal := [1, -1, 1] } [] = .error .divideByZero) ∧
    (0 < ([1, 1] : List Int).length ∧
      ∃ bits, recoverBits ({ signal := [1, -1, 1] } : Channel).signal [1, 1] = .ok bits ∧
        Decode { signal := [1, -1, 1] } [1, 1] = .ok (packText bits) ∧
        (∀ i j, i < ({ signal := [1, -1, 1] } : Channel).signal.length / ([1, 1] : List Int).length →
          j < ([1, 1] : List Int).length →
          ∃ a c, readAt ({ signal := [1, -1, 1] } : Channel).signal
              (i * ([1, 1] : List Int).length + j) = .ok a ∧
            readAt ([1, 1] : List Int) j = .ok c) ∧
        (∀ i j, i + 7 < bits.length → j < 8 → ∃ v, readAt bits (i + j) = .ok v)) :=
  ⟨⟨by decide, (Decode_fails_on_empty_code_only { signal := [1, -1, 1] } []).1 (by decide)⟩,
    ⟨by decide, (Decode_fails_on_empty_code_only { signal := [1, -1, 1] } [1, 1]).2 (by decide)⟩⟩

theorem Decode_read_only_witness :
    0 < (DecodeMemory.mk [2, 0, -2, 0] [1, 1] [] [] []).stationCode.length ∧
    (DecodeRun (DecodeMemory.mk [2, 0, -2, 0] [1, 1] [] [] [])).1.chSignal = [2, 0, -2, 0] ∧
    (DecodeRun (DecodeMemory.mk [2, 0, -2, 0] [1, 1] [] [] [])).1.stationCode = [1, 1] ∧
    (DecodeRun (DecodeRun (DecodeMemory.mk [2, 0, -2, 0] [1, 1] [] [] [])).1).2 =
      (DecodeRun (DecodeMemory.mk [2, 0, -2, 0] [1, 1] [] [] [])).2 ∧
    ∃ text, (DecodeRun (DecodeMemory.mk [2, 0, -2, 0] [1, 1] [] [] [])).2 = .ok text :=
  ⟨by decide,
    (Decode_read_only (DecodeMemory.mk [2, 0, -2, 0] [1, 1] [] [] [])).1,
    (Decode_read_only (DecodeMemory.mk [2, 0, -2, 0] [1, 1] [] [] [])).2.1,
    (Decode_read_only (DecodeMemory.mk [2, 0, -2, 0] [1, 1] [] [] [])).2.2.2.1,
    (Decode_read_only (DecodeMemory.mk [2, 0, -2, 0] [1, 1] [] [] [])).2.2.2.2 (by decide)⟩

theorem hadamard_doubling_witness :
    (1 + 1 ≤ 43 ∧
      ∃ H m2, walshMatrix ((2 : Int) ^ 1) = .ok H ∧ walshMatrix ((2 : Int) ^ (1 + 1)) = .ok m2) ∧
    ((walshMatrix ((2 : Int) ^ 1) = .ok [[1, 1], [1, -1]] ∧
        walshMatrix ((2 : Int) ^ (1 + 1)) =
          .ok [[1, 1, 1, 1], [1, -1, 1, -1], [1, 1, -1, -1], [1, -1, -1, 1]]) ∧
      ([[1, 1, 1, 1], [1, -1, 1, -1], [1, 1, -1, -1], [1, -1, -1, 1]] : List (List Int)) =
        sylvester [[1, 1], [1, -1]] ∧
      ∀ i j, i < 2 ^ 1 → j < 2 ^ 1 →
        ∃ h, (([[1, 1], [1, -1]] : List (List Int))[i]?).bind (fun row => row[j]?) = some h ∧
          (([[1, 1, 1, 1], [1, -1, 1, -1], [1, 1, -1, -1], [1, -1, -1, 1]] :
            List (List Int))[i]?).bind (fun row => row[j]?) = some h ∧
          (([[1, 1, 1, 1], [1, -1, 1, -1], [1, 1, -1, -1], [1, -1, -1, 1]] :
            List (List Int))[i]?).bind (fun row => row[j + 2 ^ 1]?) = some h ∧
          (([[1, 1, 1, 1], [1, -1, 1, -1], [1, 1, -1, -1], [1, -1, -1, 1]] :
            List (List Int))[i + 2 ^ 1]?).bind (fun row => row[j]?) = some h ∧
          (([[1, 1, 1, 1], [1, -1, 1, -1], [1, 1, -1, -1], [1, -1, -1, 1]] :
            List (List Int))[i + 2 ^ 1]?).bind (fun row => row[j + 2 ^ 1]?) = some (-h)) :=
  ⟨⟨by decide, hadamard_doubling.2.1 1 (by decide)⟩,
    ⟨by decide, hadamard_doubling.2.2.1 1 _ _ (by decide) (by decide)⟩⟩

theorem packing_bits_to_text_witness :
    (∀ ch ∈ "Hi".toList, ch.toNat < 256) ∧
    packLoop (asciiToBits "Hi") 0 [] = .ok ("Hi".toList.map Char.toNat) :=
  ⟨by decide, packing_bits_to_text.2.2 "Hi" (by decide)⟩

end CDMA
